import Mathlib

/-!
Shallow embedding of the magma text-intelligence layer (task parser,
tag extractor, backlink index) and verification of its specification.

Strings are modelled as `List Char`.  JavaScript's `\s` character class is
modelled on its ASCII members (space, tab, newline, carriage return,
vertical tab, form feed); `toLowerCase` is modelled by `Char.toLower`,
which agrees on ASCII.  Regular-expression matching is modelled by
explicit leftmost-match scanners that mirror the backtracking behaviour
of the concrete patterns appearing in the source.
-/

def strL (s : String) : List Char := s.data

def isWsChar (c : Char) : Bool :=
  c = ' ' || c = '\t' || c = '\n' || c = '\r' || c = '\x0b' || c = '\x0c'

/-- JavaScript `String.prototype.trim`, on `List Char`. -/
def trimList (l : List Char) : List Char :=
  ((l.dropWhile isWsChar).reverse.dropWhile isWsChar).reverse

/-- `content.split('\n')`. -/
def splitLines (content : List Char) : List (List Char) :=
  content.splitOn '\n'

/-- `lines.join('\n')`. -/
def joinLines (ls : List (List Char)) : List Char :=
  List.intercalate ['\n'] ls

inductive TaskStatus
  | todo
  | doing
  | done
deriving DecidableEq, Repr

inductive TaskPriority
  | low
  | med
  | high
deriving DecidableEq, Repr

/-- `statusFromMark` from the task parser: `x`/`X` ↦ done, `/` ↦ doing,
anything else ↦ todo (via `mark.toLowerCase()`). -/
def statusFromMark (mark : Char) : TaskStatus :=
  if mark.toLower = 'x' then .done
  else if mark.toLower = '/' then .doing
  else .todo

/-- `statusToMark` from the task parser. -/
def statusToMark : TaskStatus → Char
  | .done => 'x'
  | .doing => '/'
  | .todo => ' '

/-- The shape `\d{4}-\d{2}-\d{2}` on a ten-character window. -/
def dateShape : List Char → Bool
  | [a, b, c, d, e, f, g, h, i, j] =>
    a.isDigit && b.isDigit && c.isDigit && d.isDigit && e = '-' &&
    f.isDigit && g.isDigit && h = '-' && i.isDigit && j.isDigit
  | _ => false

/-- Match `\d{4}-\d{2}-\d{2}` as a prefix of `l`, returning the matched
ten characters. -/
def dateAt (l : List Char) : Option (List Char) :=
  if dateShape (l.take 10) then some (l.take 10) else none

/-- Case-insensitive character comparison (the regex `i` flag). -/
def ciEq (a b : Char) : Bool := a.toLower = b.toLower

/-- Case-insensitive pattern-prefix test: first argument is the pattern. -/
def prefixCI : List Char → List Char → Bool
  | [], _ => true
  | _ :: _, [] => false
  | p :: ps, c :: cs => ciEq c p && prefixCI ps cs

/-- The separator `[:\s]` following `due`: one colon or whitespace. -/
def sepTest : List Char → Bool
  | d :: _ => d = ':' || isWsChar d
  | [] => false

/-- The alternative `due[:\s]` of the `extractDue` regex, as a prefix test
(`due` case-insensitively, then the separator). -/
def duePrefix1 (l : List Char) : Bool :=
  prefixCI (strL "due") l && sepTest (l.drop 3)

/-- The alternative `@due\(` of the `extractDue` regex, as a prefix test
(`@` and `(` have no case, so a uniform case-insensitive prefix test). -/
def duePrefix2 (l : List Char) : Bool :=
  prefixCI (strL "@due(") l

/-- One attempt of `/(?:due[:\s]|@due\()?(\d{4}-\d{2}-\d{2})\)?/i` at a fixed
position, returning the captured date.  The prefix group is optional `(?)`,
so after both prefixed alternatives fail the bare date is tried. -/
def dueAt (l : List Char) : Option (List Char) :=
  (if duePrefix1 l then dateAt (l.drop 4) else none) <|>
  (if duePrefix2 l then dateAt (l.drop 5) else none) <|>
  dateAt l

/-- Leftmost-match scan: try `f` at every start position, left to right. -/
def scanFirst (f : List Char → Option α) : List Char → Option α
  | [] => none
  | a :: rest =>
    match f (a :: rest) with
    | some r => some r
    | none => scanFirst f rest

/-- `extractDue` from the task parser. -/
def extractDue (line : List Char) : Option (List Char) :=
  scanFirst dueAt line

/-- One attempt of `/#(low|med|high)/i` at a fixed position. -/
def prioAt : List Char → Option TaskPriority
  | [] => none
  | a :: rest =>
    if a = '#' then
      if prefixCI (strL "low") rest then some .low
      else if prefixCI (strL "med") rest then some .med
      else if prefixCI (strL "high") rest then some .high
      else none
    else none

/-- `extractPriority` from the task parser. -/
def extractPriority (line : List Char) : Option TaskPriority :=
  scanFirst prioAt line

/-- The class `[A-Za-z0-9_-]`. -/
def isWordHy (c : Char) : Bool := c.isAlpha || c.isDigit || c = '_' || c = '-'

/-- One attempt of `/@([A-Za-z0-9_-]+)/` at a fixed position. -/
def ownerAt : List Char → Option (List Char)
  | [] => none
  | a :: rest =>
    if a = '@' then
      let run := rest.takeWhile isWordHy
      if run.isEmpty then none else some run
    else none

/-- `extractOwner` from the task parser. -/
def extractOwner (line : List Char) : Option (List Char) :=
  scanFirst ownerAt line

/-- The JavaScript regex word class `[A-Za-z0-9_]` (for `\b`). -/
def isWordChar (c : Char) : Bool := c.isAlpha || c.isDigit || c = '_'

/-- `\b` before a word character: start of string or non-word predecessor. -/
def boundaryOk : Option Char → Bool
  | none => true
  | some c => !(isWordChar c)

/-- One attempt of `/\bproject:([A-Za-z0-9_-]+)/i` at a fixed position,
given the preceding character. -/
def projAt (prev : Option Char) (l : List Char) : Option (List Char) :=
  if boundaryOk prev && prefixCI (strL "project:") l then
    let run := (l.drop 8).takeWhile isWordHy
    if run.isEmpty then none else some run
  else none

def findProjAux : Option Char → List Char → Option (List Char)
  | _, [] => none
  | prev, a :: rest =>
    match projAt prev (a :: rest) with
    | some r => some r
    | none => findProjAux (some a) rest

/-- `extractProject` from the task parser. -/
def extractProject (line : List Char) : Option (List Char) :=
  findProjAux none line

/-- The list-marker class `[-*+]`. -/
def isMarkerChar (c : Char) : Bool := c = '-' || c = '*' || c = '+'

/-- The checkbox status-character class `[ xX/]`. -/
def isMarkChar (c : Char) : Bool := c = ' ' || c = 'x' || c = 'X' || c = '/'

/-- `(.*)$` admissibility: JavaScript `.` matches neither `\n` nor `\r`. -/
def noNL (l : List Char) : Bool := l.all (fun c => c ≠ '\n' && c ≠ '\r')

/-- The task-line regex `/^(\s*)([-*+])\s+\[([ xX\/])\]\s+(.*)$/i`,
returning the status character (group 3) and the remainder (group 4). -/
def matchTaskLine (line : List Char) : Option (Char × List Char) :=
  match line.dropWhile isWsChar with
  | m :: rest1 =>
    if isMarkerChar m && !(rest1.takeWhile isWsChar).isEmpty then
      match rest1.dropWhile isWsChar with
      | '[' :: c :: ']' :: rest3 =>
        if isMarkChar c && !(rest3.takeWhile isWsChar).isEmpty then
          let g4 := rest3.dropWhile isWsChar
          if noNL g4 then some (c, g4) else none
        else none
      | _ => none
    else none
  | [] => none

structure ParsedTask where
  id : List Char
  title : List Char
  status : TaskStatus
  owner : Option (List Char)
  due : Option (List Char)
  priority : Option TaskPriority
  project : Option (List Char)
  notePath : Option (List Char)
  lineNumber : Option Int
  originalLine : Option (List Char)
deriving DecidableEq, Repr

/-- The task id `idx + '-' + line.trim().substring(0, 20)`. -/
def idOf (idx : Nat) (line : List Char) : List Char :=
  strL (Nat.repr idx) ++ '-' :: (trimList line).take 20

/-- The body of the per-line loop of `parseTasksFromMarkdown`. -/
def parseLine (idx : Nat) (line : List Char) : Option ParsedTask :=
  match matchTaskLine line with
  | none => none
  | some (c, g4) =>
    let title := trimList g4
    if title.isEmpty then none
    else some (ParsedTask.mk (idOf idx line) title (statusFromMark c)
      (extractOwner line) (extractDue line) (extractPriority line)
      (extractProject line) none (some (Int.ofNat idx)) (some line))

/-- `parseTasksFromMarkdown` from the task parser. -/
def parseTasksFromMarkdown (content : List Char) : List ParsedTask :=
  (splitLines content).enum.filterMap (fun p => parseLine p.1 p.2)

/-- First-match replacement of `/\[([ xX/])\]/i` by `[m]`, as performed by
`oldLine.replace(...)` in `updateTaskStatus`; the line is returned
unchanged when no checkbox group occurs. -/
def replaceCheckbox (m : Char) : List Char → List Char
  | [] => []
  | a :: rest =>
    if a = '[' then
      match rest with
      | c :: b :: rest2 =>
        if b = ']' && isMarkChar c then '[' :: m :: ']' :: rest2
        else a :: replaceCheckbox m rest
      | _ => a :: replaceCheckbox m rest
    else a :: replaceCheckbox m rest

/-- Whether `/\[([ xX/])\]/i` matches anywhere in the line. -/
def hasCheckbox : List Char → Bool
  | [] => false
  | a :: rest =>
    if a = '[' then
      match rest with
      | c :: b :: _ => (b = ']' && isMarkChar c) || hasCheckbox rest
      | _ => hasCheckbox rest
    else hasCheckbox rest

/-- `updateTaskStatus` from the task parser.  A thrown `Error` is modelled
as `Except.error` with the message text. -/
def updateTaskStatus (content : List Char) (task : ParsedTask)
    (newStatus : TaskStatus) : Except String (List Char) :=
  match task.lineNumber, task.originalLine with
  | some li, some ol =>
    if ol.isEmpty then
      .error "Task must have lineNumber and originalLine to update"
    else
      let lines := splitLines content
      if li < 0 || (lines.length : Int) ≤ li then
        .error "Invalid line number"
      else
        let oldLine := lines.getD li.toNat []
        let updatedLine := replaceCheckbox (statusToMark newStatus) oldLine
        .ok (joinLines (lines.set li.toNat updatedLine))
  | _, _ => .error "Task must have lineNumber and originalLine to update"

/-- The backtick character (written via a string literal). -/
def backtick : Char := (strL "`").headD ' '

/-- The start indices of all backtick characters in the line. -/
def backtickIdxs (line : List Char) : List Nat :=
  line.enum.filterMap (fun x => if x.2 = backtick then some x.1 else none)

/-- Pair up consecutive indices into (start, end-exclusive) ranges. -/
def pairSpans : List Nat → List (Nat × Nat)
  | i :: j :: rest => (i, j + 1) :: pairSpans rest
  | _ => []

/-- Successive matches of ``/`[^`]*`/g`` with their character ranges
(start inclusive, end exclusive).  A match of this pattern is a backtick,
a maximal backtick-free run, and a closing backtick, and the global scan
resumes after the closing backtick, so the matches pair up the 1st and
2nd backtick of the line, the 3rd and 4th, and so on. -/
def codeSpans (line : List Char) : List (Nat × Nat) :=
  pairSpans (backtickIdxs line)

/-- `isInInlineCode` from the tag parser. -/
def inSpans (pos : Nat) (spans : List (Nat × Nat)) : Bool :=
  spans.any (fun r => decide (r.1 ≤ pos) && decide (pos < r.2))

/-- Successive matches of `/#([a-zA-Z0-9_-]+)/g` with start indices.
The global scan resumes after each match, but since `#` is not in the
captured class no new match can begin inside a captured run, so
advancing one character at a time yields the same match list. -/
def hashtagMatchesAux : Nat → List Char → List (Nat × List Char)
  | _, [] => []
  | i, a :: rest =>
    if a = '#' then
      let run := rest.takeWhile isWordHy
      if run.isEmpty then hashtagMatchesAux (i + 1) rest
      else (i, run) :: hashtagMatchesAux (i + 1) rest
    else hashtagMatchesAux (i + 1) rest

/-- Successive matches of `/\[\[([^\]|]+?)\]\]/g` with start indices,
returning the captured group.  The lazy capture class excludes both the
closing bracket and the alias pipe, so the capture is exactly the run up
to the first such character, and a match succeeds only when that run is
non-empty and immediately double-bracket-terminated.  The fuel counter
starts at one more than the length and every step consumes at least one
character, so it never reaches zero. -/
def wikiMatchesGo : Nat → Nat → List Char → List (Nat × List Char)
  | 0, _, _ => []
  | _, _, [] => []
  | fuel + 1, i, a :: rest =>
    if a = '[' then
      match rest with
      | b :: rest2 =>
        if b = '[' then
          let run := rest2.takeWhile (fun c => !(c = ']' || c = '|'))
          if run.isEmpty then wikiMatchesGo fuel (i + 1) rest
          else
            match rest2.drop run.length with
            | c :: d :: rest3 =>
              if c = ']' && d = ']' then
                (i, run) :: wikiMatchesGo fuel (i + run.length + 4) rest3
              else wikiMatchesGo fuel (i + 1) rest
            | _ => wikiMatchesGo fuel (i + 1) rest
        else wikiMatchesGo fuel (i + 1) rest
      | [] => []
    else wikiMatchesGo fuel (i + 1) rest

def wikiMatchesAux (i : Nat) (l : List Char) : List (Nat × List Char) :=
  wikiMatchesGo (l.length + 1) i l

def toLowerList (l : List Char) : List Char := l.map Char.toLower

mutual

/-- `replace(/\s+/g, '-')`: collapse each whitespace run to one hyphen.
`collapseWsRun` is the state inside a run whose hyphen is already
emitted. -/
def collapseWs : List Char → List Char
  | [] => []
  | a :: rest =>
    if isWsChar a then '-' :: collapseWsRun rest else a :: collapseWs rest

def collapseWsRun : List Char → List Char
  | [] => []
  | a :: rest =>
    if isWsChar a then collapseWsRun rest else a :: collapseWs rest

end

/-- The hashtag contributions of one line (inline-code spans excluded),
in match order, lowercased. -/
def lineHashtags (line : List Char) : List (List Char) :=
  let spans := codeSpans line
  (hashtagMatchesAux 0 line).filterMap (fun m =>
    if inSpans m.1 spans then none
    else
      let tag := toLowerList m.2
      if tag.isEmpty then none else some tag)

/-- The wikilink-tag contributions of one line (inline-code spans
excluded), in match order, normalized. -/
def lineWikiTags (line : List Char) : List (List Char) :=
  let spans := codeSpans line
  (wikiMatchesAux 0 line).filterMap (fun m =>
    if inSpans m.1 spans then none
    else
      let tagName := trimList (m.2.takeWhile (fun c => c ≠ '|'))
      if tagName.isEmpty then none
      else some (collapseWs (toLowerList tagName)))

/-- `Set.add`: keep insertion order, drop duplicates. -/
def addTag (tags : List (List Char)) (t : List Char) : List (List Char) :=
  if t ∈ tags then tags else tags ++ [t]

/-- `line.trim().startsWith('` ``` `')`. -/
def isFenceLine (line : List Char) : Bool :=
  (strL "```").isPrefixOf (trimList line)

/-- One step of the per-line loop of `extractHashtags`: the accumulated
tag set paired with the `inCodeBlock` flag. -/
def tagStep (acc : List (List Char) × Bool) (line : List Char) :
    List (List Char) × Bool :=
  if isFenceLine line then (acc.1, !acc.2)
  else if acc.2 then acc
  else ((lineHashtags line ++ lineWikiTags line).foldl addTag acc.1, acc.2)

/-- Lexicographic comparison by code unit (JavaScript default sort). -/
def ltStr : List Char → List Char → Bool
  | [], [] => false
  | [], _ :: _ => true
  | _ :: _, [] => false
  | x :: xs, y :: ys =>
    if x.val < y.val then true
    else if y.val < x.val then false
    else ltStr xs ys

def insertSorted (t : List Char) : List (List Char) → List (List Char)
  | [] => [t]
  | x :: xs => if ltStr t x then t :: x :: xs else x :: insertSorted t xs

/-- `Array.from(tags).sort()` on a duplicate-free tag list. -/
def sortTags (ts : List (List Char)) : List (List Char) :=
  ts.foldr insertSorted []

/-- `extractHashtags` from the tag parser. -/
def extractHashtags (text : List Char) : List (List Char) :=
  sortTags ((splitLines text).foldl tagStep ([], false)).1

/-- `extractHashtagsFromLine` from the tag parser. -/
def extractHashtagsFromLine (line : List Char) : List (List Char) :=
  lineHashtags line ++ lineWikiTags line

inductive NoteType
  | file
  | folder
deriving DecidableEq, Repr

mutual

/-- `NoteMeta` from `src/types/notes.ts`.  The optional recursive field
`children?: NoteMeta[]` is encoded with the auxiliary types `Children`
(absent or present) and `NoteList` (a list of notes), which keeps the
recursion structural. -/
inductive NoteMeta
  | mk (id : List Char) (path : List Char) (title : List Char)
       (type : Option NoteType) (children : Children)
deriving DecidableEq

inductive Children
  | undef
  | present (l : NoteList)
deriving DecidableEq

inductive NoteList
  | nil
  | cons (hd : NoteMeta) (tl : NoteList)
deriving DecidableEq

end

def NoteMeta.id : NoteMeta → List Char
  | .mk i _ _ _ _ => i

def NoteMeta.path : NoteMeta → List Char
  | .mk _ p _ _ _ => p

def NoteMeta.title : NoteMeta → List Char
  | .mk _ _ t _ _ => t

def NoteMeta.type : NoteMeta → Option NoteType
  | .mk _ _ _ ty _ => ty

def NoteMeta.children : NoteMeta → Children
  | .mk _ _ _ _ ch => ch

mutual

/-- `flattenNotes` from `buildBacklinksIndex`: depth-first flatten of the
note tree keeping only `file`-type notes (folders contribute their
children when the `children` field is present). -/
def flattenOne : NoteMeta → List NoteMeta
  | .mk i p t ty ch =>
    if ty = some NoteType.file then [.mk i p t ty ch]
    else match ty, ch with
      | some NoteType.folder, .present cs => flattenList cs
      | _, _ => []

def flattenList : NoteList → List NoteMeta
  | .nil => []
  | .cons n rest => flattenOne n ++ flattenList rest

end

/-- `normalizePath` from `backlinks.ts`: backslashes to forward slashes,
lowercase, trim. -/
def normalizePath (p : List Char) : List Char :=
  trimList (toLowerList (p.map (fun c => if c = '\\' then '/' else c)))

/-- `replace(/\.md$/i, '')`: strip a case-insensitive `.md` suffix. -/
def stripMdCI (l : List Char) : List Char :=
  if decide (3 ≤ l.length) && prefixCI (strL ".md") (l.drop (l.length - 3)) then
    l.take (l.length - 3)
  else l

/-- `replace(/\.md$/, '')`: strip a case-sensitive `.md` suffix. -/
def stripMdCS (l : List Char) : List Char :=
  if (strL ".md").isSuffixOf l then l.take (l.length - 3) else l

/-- JavaScript `Map.get` on an insertion-ordered association list. -/
def mapGet (m : List (List Char × α)) (key : List Char) : Option α :=
  (m.find? (fun e => e.1 == key)).map (·.2)

/-- JavaScript `Map.set`: update in place if present, else append. -/
def mapSet (m : List (List Char × α)) (key : List Char) (val : α) :
    List (List Char × α) :=
  match m with
  | [] => [(key, val)]
  | e :: rest => if e.1 == key then (key, val) :: rest else e :: mapSet rest key val

/-- The normalized-path key under which a note is stored in `notePathMap`. -/
def pathKeyCI (n : NoteMeta) : List Char :=
  normalizePath (stripMdCI n.id)

/-- The normalized-title key of a note. -/
def titleKey (n : NoteMeta) : List Char :=
  normalizePath n.title

/-- `noteTitleMap`: normalized title to the notes carrying it, built in
flatten order by appending. -/
def buildTitleMap (fl : List NoteMeta) : List (List Char × List NoteMeta) :=
  fl.foldl (fun m n =>
    mapSet m (titleKey n) ((mapGet m (titleKey n)).getD [] ++ [n])) []

/-- `notePathMap`: normalized path (id without extension) to note. -/
def buildPathMap (fl : List NoteMeta) : List (List Char × NoteMeta) :=
  fl.foldl (fun m n => mapSet m (pathKeyCI n) n) []

/-- Successive full matches of `/\[\[([^\]]+)\]\]/g` (the `extractLinks`
grammar; the capture class excludes only the closing bracket).  The fuel
counter starts above the length and every step consumes at least one
character, so it never reaches zero. -/
def linkMatchesGo : Nat → List Char → List (List Char)
  | 0, _ => []
  | _, [] => []
  | fuel + 1, a :: rest =>
    if a = '[' then
      match rest with
      | b :: rest2 =>
        if b = '[' then
          let run := rest2.takeWhile (fun c => c ≠ ']')
          if run.isEmpty then linkMatchesGo fuel rest
          else
            match rest2.drop run.length with
            | c :: d :: rest3 =>
              if c = ']' && d = ']' then
                ('[' :: '[' :: (run ++ [']', ']'])) :: linkMatchesGo fuel rest3
              else linkMatchesGo fuel rest
            | _ => linkMatchesGo fuel rest
        else linkMatchesGo fuel rest
      | [] => []
    else linkMatchesGo fuel rest

def linkMatches (l : List Char) : List (List Char) :=
  linkMatchesGo (l.length + 1) l

/-- `m.replace(/\[\[|\]\]/g, '')`: delete every `[[` and `]]`. -/
def stripDelims : List Char → List Char
  | [] => []
  | '[' :: '[' :: rest2 => stripDelims rest2
  | ']' :: ']' :: rest2 => stripDelims rest2
  | a :: rest => a :: stripDelims rest

/-- `extractLinks` from `backlinks.ts`. -/
def extractLinks (content : List Char) : List (List Char) :=
  if content.isEmpty then []
  else
    ((linkMatches content).map (fun m =>
      trimList ((stripDelims m).takeWhile (fun c => c ≠ '|')))).filter
      (fun t => !t.isEmpty)

/-- The three path variations tried for a normalized link. -/
def pathVariations (nl : List Char) : List (List Char) :=
  [nl, stripMdCS nl, nl ++ strL ".md"]

def splitSlash (l : List Char) : List (List Char) := l.splitOn '/'

/-- The partial-path stage: first stored path whose trailing segments
equal the link (or which equals the link), in map insertion order. -/
def suffixMatch (nl : List Char) (pm : List (List Char × NoteMeta)) :
    Option (List Char × NoteMeta) :=
  pm.find? (fun e =>
    let pathParts := splitSlash e.1
    let linkParts := splitSlash nl
    decide (linkParts.length ≤ pathParts.length) &&
      (List.intercalate ['/']
          (pathParts.drop (pathParts.length - linkParts.length)) == nl ||
        e.1 == nl))

/-- Link resolution from the per-link loop of `buildBacklinksIndex`:
path variations, then partial path match (only for slash-containing
targets), then title match (only for slash-free targets); returns the
match key together with the resolved note. -/
def resolveLink (titleMap : List (List Char × List NoteMeta))
    (pathMap : List (List Char × NoteMeta)) (linkText : List Char) :
    Option (List Char × NoteMeta) :=
  let nl := normalizePath linkText
  match (pathVariations nl).findSome?
      (fun v => (mapGet pathMap v).map (fun n => (v, n))) with
  | some r => some r
  | none =>
    match (if nl.contains '/' then suffixMatch nl pathMap else none) with
    | some r => some r
    | none =>
      if !nl.contains '/' then
        match mapGet titleMap nl with
        | some (n :: _) => some (nl, n)
        | _ => none
      else none

/-- Index insertion: drop a falsy (empty) match key, drop self-links,
deduplicate by source-note id, append. -/
def addBacklink (index : List (List Char × List NoteMeta)) (note : NoteMeta)
    (r : List Char × NoteMeta) : List (List Char × List NoteMeta) :=
  if r.1.isEmpty then index
  else if r.2.id == note.id then index
  else
    let existing := (mapGet index r.1).getD []
    if existing.any (fun n => n.id == note.id) then index
    else mapSet index r.1 (existing ++ [note])

/-- Processing of one note's content in `buildBacklinksIndex`. -/
def processNote (titleMap : List (List Char × List NoteMeta))
    (pathMap : List (List Char × NoteMeta))
    (index : List (List Char × List NoteMeta)) (note : NoteMeta)
    (content : List Char) : List (List Char × List NoteMeta) :=
  if content.isEmpty then index
  else
    (extractLinks content).foldl (fun idx linkText =>
      match resolveLink titleMap pathMap linkText with
      | some r => addBacklink idx note r
      | none => idx) index

/-- `buildBacklinksIndex` from `backlinks.ts`; the asynchronous content
loader is modelled as a pure function from path to content. -/
def buildBacklinksIndex (notes : NoteList)
    (getNoteContent : List Char → List Char) :
    List (List Char × List NoteMeta) :=
  let fl := flattenList notes
  let titleMap := buildTitleMap fl
  let pathMap := buildPathMap fl
  fl.foldl (fun idx n => processNote titleMap pathMap idx n (getNoteContent n.path)) []

/-- `getBacklinks` from `backlinks.ts`. -/
def getBacklinks (note : Option NoteMeta)
    (index : List (List Char × List NoteMeta)) : List NoteMeta :=
  match note with
  | none => []
  | some n =>
    let backlinks := (mapGet index (normalizePath (stripMdCS n.id))).getD []
    let titleBacklinks := (mapGet index (normalizePath n.title)).getD []
    let all := titleBacklinks.foldl (fun m b => mapSet m b.id b)
      (backlinks.foldl (fun m b => mapSet m b.id b) [])
    all.map (·.2)

/-- From the spec's words: one of the introducer forms `due:YYYY-MM-DD`,
`due YYYY-MM-DD` or `@due(YYYY-MM-DD)` occurring at one position. -/
def specDueIntroAt (l : List Char) : Bool :=
  (prefixCI (strL "due:") l && (dateAt (l.drop 4)).isSome) ||
  (prefixCI (strL "due") l &&
    (match l.drop 3 with
     | c :: r => isWsChar c && (dateAt r).isSome
     | [] => false)) ||
  (prefixCI (strL "@due(") l && (dateAt (l.drop 5)).isSome)

/-- From the spec's words: the line contains one of the three due
introducer forms somewhere. -/
def specHasDueIntro (l : List Char) : Bool :=
  l.tails.any specDueIntroAt

/-- The task-line grammar of the spec, as an explicit decomposition:
leading whitespace, one list marker, one-or-more spaces, `[`, one status
character, `]`, one-or-more spaces, then the remainder (newline-free). -/
def TaskLineShape (line : List Char) (c : Char) (g4 : List Char) : Prop :=
  ∃ ws m ws1 ws2,
    line = ws ++ m :: (ws1 ++ '[' :: c :: ']' :: (ws2 ++ g4)) ∧
    (∀ x ∈ ws, isWsChar x) ∧ isMarkerChar m = true ∧ ws1 ≠ [] ∧
    (∀ x ∈ ws1, isWsChar x) ∧ isMarkChar c = true ∧ ws2 ≠ [] ∧
    (∀ x ∈ ws2, isWsChar x) ∧ noNL g4 = true

def titleFilter (fl : List NoteMeta) (k : List Char) : List NoteMeta :=
  fl.filter (fun n => titleKey n == k)

/-- The key under which `getBacklinks` looks a note up by path
(case-sensitive `.md` strip, line 204 of `backlinks.ts`). -/
def pathKeyCS (n : NoteMeta) : List Char :=
  normalizePath (stripMdCS n.id)

/-- What link resolution can produce: a path-map entry, or the head of a
title-map bucket. -/
def ResolveSound (tm : List (List Char × List NoteMeta))
    (pm : List (List Char × NoteMeta)) (K : List Char) (ln : NoteMeta) :
    Prop :=
  (K, ln) ∈ pm ∨ ∃ ms, mapGet tm K = some ms ∧ ln ∈ ms

example : ("ab".data = ['a', 'b']) := by decide

example : extractHashtags (strL "- [ ] todo item #high") = [strL "high"] := by decide

example :
    extractHashtags (strL "#a\n```\n#b\n```\n#c") = [strL "a", strL "c"] := by decide

example : extractHashtagsFromLine (strL "#b") = [strL "b"] := by decide

example : extractHashtagsFromLine (strL "see [[Tag Name|alias]] x") = [] := by decide

example : extractHashtagsFromLine (strL "see [[Tag Name]] x") = [strL "tag-name"] := by decide

example : extractDue (strL "- [ ] x due:2025-01-15") = some (strL "2025-01-15") := by decide

example : extractDue (strL "- [ ] x 2025-01-15") = some (strL "2025-01-15") := by decide

example : extractPriority (strL "- [ ] todo #high") = some .high := by decide

example : extractOwner (strL "- [ ] t @alice more") = some (strL "alice") := by decide

example : extractProject (strL "- [ ] t project:alpha") = some (strL "alpha") := by decide

example : extractProject (strL "- [ ] t xproject:alpha") = none := by decide

example : matchTaskLine (strL "- [ ] foo") = some (' ', strL "foo") := by decide

example : matchTaskLine (strL "-[ ] foo") = none := by decide

example : (parseTasksFromMarkdown (strL "- [ ] a")).length = 1 := by decide

example :
    updateTaskStatus (strL "- [ ] a")
      (ParsedTask.mk (strL "0-- [ ] a") (strL "a") .todo none none none none
        none (some 0) (some (strL "- [ ] a"))) .done
      = .ok (strL "- [x] a") := rfl

/-! ### Helper lemmas: line splitting and whitespace runs -/

theorem splitOnP_pieces (p : Char → Bool) (xs : List Char) :
    ∀ l ∈ xs.splitOnP p, ∀ a ∈ l, p a = false := by
  induction xs with
  | nil =>
    intro l hl a ha
    simp [List.splitOnP_nil] at hl
    subst hl
    simp at ha
  | cons x xs ih =>
    intro l hl a ha
    rw [List.splitOnP_cons] at hl
    by_cases hx : p x
    · simp [hx] at hl
      rcases hl with hl | hl
      · subst hl; simp at ha
      · exact ih l hl a ha
    · simp [hx] at hl
      rcases hh : xs.splitOnP p with _ | ⟨h, t⟩
      · exact absurd hh (List.splitOnP_ne_nil p xs)
      · rw [hh] at hl
        simp [List.modifyHead] at hl
        rcases hl with hl | hl
        · subst hl
          rcases List.mem_cons.mp ha with ha | ha
          · subst ha; simpa using hx
          · exact ih h (by rw [hh]; exact List.mem_cons_self _ _) a ha
        · exact ih l (by rw [hh]; exact List.mem_cons_of_mem _ hl) a ha

theorem mem_splitLines_no_newline (content : List Char) :
    ∀ l ∈ splitLines content, '\n' ∉ l := by
  intro l hl c
  have := splitOnP_pieces (· == '\n') content l hl '\n' c
  simp at this

theorem splitLines_ne_nil (content : List Char) : splitLines content ≠ [] :=
  List.splitOnP_ne_nil _ content

theorem joinLines_splitLines (content : List Char) :
    joinLines (splitLines content) = content :=
  List.intercalate_splitOn content '\n'

theorem splitLines_joinLines (ls : List (List Char)) (hne : ls ≠ [])
    (h : ∀ l ∈ ls, '\n' ∉ l) : splitLines (joinLines ls) = ls :=
  List.splitOn_intercalate ls '\n' h hne

theorem dropWhile_ws_append (ws l : List Char) (h : ∀ x ∈ ws, isWsChar x) :
    (ws ++ l).dropWhile isWsChar = l.dropWhile isWsChar := by
  induction ws with
  | nil => rfl
  | cons a ws ih =>
    have ha : isWsChar a := h a (List.mem_cons_self _ _)
    simp only [List.cons_append, List.dropWhile_cons, ha, if_true]
    exact ih (fun x hx => h x (List.mem_cons_of_mem _ hx))

theorem takeWhile_append_stop (p : Char → Bool) (xs : List Char) (y : Char)
    (ys : List Char) (hy : p y = false) :
    (xs ++ y :: ys).takeWhile p = xs.takeWhile p := by
  induction xs with
  | nil => simp [List.takeWhile_cons, hy]
  | cons a xs ih =>
    by_cases ha : p a
    · simp [List.takeWhile_cons, ha, ih]
    · simp [List.takeWhile_cons, ha]

theorem takeWhile_ws_all (ws : List Char) (h : ∀ x ∈ ws, isWsChar x) :
    ws.takeWhile isWsChar = ws := by
  induction ws with
  | nil => rfl
  | cons a ws ih =>
    have ha : isWsChar a := h a (List.mem_cons_self _ _)
    simp [List.takeWhile_cons, ha,
      ih (fun x hx => h x (List.mem_cons_of_mem _ hx))]

/-! ### Claim C2 -/

/-- Claim C2 (corrected): on `"- [ ] todo item #high"` the tag extractor
does count the priority-shaped `#high` token as a generic tag — its
output is exactly `["high"]`, not the empty array. -/
theorem c2_priority_tag_amended :
    extractHashtags (strL "- [ ] todo item #high") = [strL "high"] := by decide

/-- Claim C2 counterexample: the output is not the empty array. -/
theorem c2_priority_tag_counterexample :
    extractHashtags (strL "- [ ] todo item #high") ≠ [] := by decide

/-! ### Claim C3 -/

/-- Claim C3: the code sets `due` on a line that contains a digit-grouped
date introduced by none of the three documented forms, contradicting both
the claim and the function's own documentation (the regex made the
introducer group optional). -/
theorem c3_due_without_introducer :
    extractDue (strL "- [ ] x 2025-01-15") = some (strL "2025-01-15") ∧
    specHasDueIntro (strL "- [ ] x 2025-01-15") = false := by
  constructor
  · decide
  · decide

/-! ### Claim C5 -/

/-- Claim C5 (amended): `updateTaskStatus` fails exactly when the task's
`lineNumber` is undefined, its `originalLine` is absent **or empty**
(JavaScript's falsiness check `!task.originalLine`), or `lineNumber` is
out of bounds for the current content; being an `Except`, the error case
carries no updated content and the input is unaffected. -/
theorem c5_update_error_iff_amended (content : List Char) (task : ParsedTask)
    (S : TaskStatus) :
    (∃ e, updateTaskStatus content task S = .error e) ↔
      (task.lineNumber = none ∨ task.originalLine = none ∨
        task.originalLine = some [] ∨
        ∃ li : Int, task.lineNumber = some li ∧
          (li < 0 ∨ ((splitLines content).length : Int) ≤ li)) := by
  rcases hln : task.lineNumber with _ | li
  · simp [updateTaskStatus, hln]
  · rcases hol : task.originalLine with _ | ol
    · simp [updateTaskStatus, hln, hol]
    · by_cases hemp : ol = []
      · subst hemp
        simp [updateTaskStatus, hln, hol]
      · by_cases hb : li < 0 ∨ ((splitLines content).length : Int) ≤ li
        · constructor
          · intro _
            exact Or.inr (Or.inr (Or.inr ⟨li, rfl, hb⟩))
          · intro _
            refine ⟨"Invalid line number", ?_⟩
            simp only [updateTaskStatus, hln, hol]
            rw [if_neg (by simpa using hemp), if_pos (by simpa using hb)]
        · constructor
          · intro ⟨e, he⟩
            exfalso
            simp only [updateTaskStatus, hln, hol] at he
            rw [if_neg (by simpa using hemp), if_neg (by simpa using hb)] at he
            exact Except.noConfusion he
          · intro hr
            exfalso
            rcases hr with h | h | h | ⟨li', hli', hb'⟩
            · exact Option.noConfusion h
            · exact Option.noConfusion h
            · exact hemp (Option.some.inj h)
            · cases Option.some.inj hli'
              exact hb hb'

/-- Claim C5 counterexample: a task with a defined, in-bounds
`lineNumber` and a present-but-empty `originalLine` is rejected, although
none of the claim's stated failure conditions holds. -/
theorem c5_update_error_counterexample :
    updateTaskStatus (strL "- [ ] a")
        (ParsedTask.mk [] [] TaskStatus.todo none none none none none
          (some 0) (some [])) TaskStatus.done
      = Except.error "Task must have lineNumber and originalLine to update" ∧
    some (0 : Int) ≠ (none : Option Int) ∧
    some ([] : List Char) ≠ (none : Option (List Char)) ∧
    ¬((0 : Int) < 0 ∨ ((splitLines (strL "- [ ] a")).length : Int) ≤ 0) := by
  refine ⟨rfl, by decide, by decide, by decide⟩

/-- Claim C5 witness: the amended equivalence at a concrete input. -/
theorem c5_update_error_witness :
    ∃ e, updateTaskStatus (strL "- [ ] a")
      (ParsedTask.mk [] [] TaskStatus.todo none none none none none none none)
      TaskStatus.todo = .error e :=
  (c5_update_error_iff_amended _ _ _).mpr (Or.inl rfl)

/-! ### Claim C10 -/

theorem set_getD_self (l : List (List Char)) (i : Nat) (hi : i < l.length) :
    l.set i (l.getD i []) = l := by
  induction l generalizing i with
  | nil => simp at hi
  | cons a t ih =>
    cases i with
    | zero => simp
    | succ j =>
      simp only [List.getD_cons_succ, List.set_cons_succ, List.cons.injEq, true_and]
      exact ih j (by simpa using hi)

theorem hasCheckbox_bracket (c b : Char) (r : List Char) :
    hasCheckbox ('[' :: c :: b :: r)
      = ((b = ']' && isMarkChar c) || hasCheckbox (c :: b :: r)) := rfl

theorem hasCheckbox_not_bracket (a : Char) (r : List Char) (ha : a ≠ '[') :
    hasCheckbox (a :: r) = hasCheckbox r := by
  simp only [hasCheckbox]
  rw [if_neg ha]

theorem hasCheckbox_bracket_short (rest : List Char) (h : rest.length ≤ 1) :
    hasCheckbox ('[' :: rest) = hasCheckbox rest := by
  match rest with
  | [] => rfl
  | [c] => rfl
  | c :: b :: r => simp at h

theorem replaceCheckbox_bracket (m c b : Char) (r : List Char) :
    replaceCheckbox m ('[' :: c :: b :: r) =
      if b = ']' && isMarkChar c then '[' :: m :: ']' :: r
      else '[' :: replaceCheckbox m (c :: b :: r) := rfl

theorem replaceCheckbox_not_bracket (m a : Char) (r : List Char) (ha : a ≠ '[') :
    replaceCheckbox m (a :: r) = a :: replaceCheckbox m r := by
  simp only [replaceCheckbox]
  rw [if_neg ha]

theorem replaceCheckbox_bracket_short (m : Char) (rest : List Char)
    (h : rest.length ≤ 1) :
    replaceCheckbox m ('[' :: rest) = '[' :: replaceCheckbox m rest := by
  match rest with
  | [] => rfl
  | [c] => rfl
  | c :: b :: r => simp at h

theorem replaceCheckbox_of_not_has (m : Char) (l : List Char)
    (h : hasCheckbox l = false) : replaceCheckbox m l = l := by
  induction l with
  | nil => rfl
  | cons a rest ih =>
    by_cases ha : a = '['
    · subst ha
      match rest with
      | [] => rfl
      | [c] =>
        rw [replaceCheckbox_bracket_short m [c] (by simp)]
        rw [hasCheckbox_bracket_short [c] (by simp)] at h
        rw [ih h]
      | c :: b :: r =>
        rw [hasCheckbox_bracket, Bool.or_eq_false_iff] at h
        rw [replaceCheckbox_bracket, if_neg (by simp [h.1]), ih h.2]
    · rw [replaceCheckbox_not_bracket m a rest ha,
        ih (by rw [hasCheckbox_not_bracket a rest ha] at h; exact h)]

/-- Claim C10 (confirmed): with a defined in-bounds `lineNumber` and a
non-empty `originalLine`, but no checkbox bracket group on the target
line, `updateTaskStatus` succeeds and returns the content unchanged, and
its result does not depend on the value of `originalLine` (it is never
compared against the current line text). -/
theorem c10_silent_noop (content : List Char) (task : ParsedTask)
    (S : TaskStatus) (li : Int) (ol : List Char)
    (hln : task.lineNumber = some li) (h0 : 0 ≤ li)
    (hlt : li < ((splitLines content).length : Int))
    (hol : task.originalLine = some ol) (hne : ol ≠ [])
    (hnc : hasCheckbox ((splitLines content).getD li.toNat []) = false) :
    updateTaskStatus content task S = .ok content ∧
    ∀ ol' : List Char, ol' ≠ [] →
      updateTaskStatus content
        (ParsedTask.mk task.id task.title task.status task.owner task.due
          task.priority task.project task.notePath task.lineNumber (some ol')) S
        = .ok content := by
  have main : ∀ ol'' : List Char, ol'' ≠ [] →
      updateTaskStatus content
        (ParsedTask.mk task.id task.title task.status task.owner task.due
          task.priority task.project task.notePath task.lineNumber (some ol'')) S
        = .ok content := by
    intro ol'' hne''
    simp only [updateTaskStatus, hln]
    rw [if_neg (by simpa [List.isEmpty_iff] using hne'')]
    rw [if_neg (by simp; omega)]
    rw [replaceCheckbox_of_not_has _ _ hnc]
    rw [set_getD_self _ _ (by omega)]
    rw [joinLines_splitLines]
  constructor
  · have heq : ParsedTask.mk task.id task.title task.status task.owner task.due
        task.priority task.project task.notePath task.lineNumber (some ol)
        = task := by
      rw [← hol]
    rw [← heq]
    exact main ol hne
  · exact main

/-- Claim C10 witness: the theorem at a concrete checkbox-free content. -/
theorem c10_silent_noop_witness :
    updateTaskStatus (strL "plain text")
      (ParsedTask.mk [] [] TaskStatus.todo none none none none none
        (some 0) (some (strL "x"))) TaskStatus.done
      = .ok (strL "plain text") :=
  (c10_silent_noop (strL "plain text")
    (ParsedTask.mk [] [] TaskStatus.todo none none none none none
      (some 0) (some (strL "x")))
    TaskStatus.done 0 (strL "x") rfl (by decide) (by decide) rfl (by decide)
    (by decide)).1

/-! ### Task-line grammar lemmas -/

theorem dropWhile_idem (p : Char → Bool) (l : List Char) :
    (l.dropWhile p).dropWhile p = l.dropWhile p := by
  induction l with
  | nil => rfl
  | cons a t ih =>
    by_cases ha : p a
    · simp [List.dropWhile_cons, ha, ih]
    · simp [List.dropWhile_cons, ha]

theorem noNL_of_sub (l : List Char) (h : noNL l = true) (t : List Char)
    (ht : List.Sublist t l) : noNL t = true := by
  simp only [noNL, List.all_eq_true] at h ⊢
  exact fun c hc => h c (ht.mem hc)

theorem isMarkerChar_not_ws (m : Char) (h : isMarkerChar m = true) :
    isWsChar m = false := by
  simp only [isMarkerChar, Bool.or_eq_true, decide_eq_true_eq] at h
  rcases h with (h | h) | h <;> subst h <;> decide

theorem matchTaskLine_construct (ws ws1 ws2 g4 : List Char) (m c : Char)
    (hws : ∀ x ∈ ws, isWsChar x) (hm : isMarkerChar m = true)
    (hws1 : ws1 ≠ []) (hws1' : ∀ x ∈ ws1, isWsChar x)
    (hc : isMarkChar c = true)
    (hws2 : ws2 ≠ []) (hws2' : ∀ x ∈ ws2, isWsChar x)
    (hg4 : noNL g4 = true) :
    matchTaskLine (ws ++ m :: (ws1 ++ '[' :: c :: ']' :: (ws2 ++ g4)))
      = some (c, g4.dropWhile isWsChar) := by
  have hdrop1 : (ws ++ m :: (ws1 ++ '[' :: c :: ']' :: (ws2 ++ g4))).dropWhile
      isWsChar = m :: (ws1 ++ '[' :: c :: ']' :: (ws2 ++ g4)) := by
    rw [dropWhile_ws_append ws _ hws, List.dropWhile_cons,
      isMarkerChar_not_ws m hm]
    rfl
  have htake1 : (ws1 ++ '[' :: c :: ']' :: (ws2 ++ g4)).takeWhile isWsChar
      = ws1 := by
    rw [takeWhile_append_stop _ _ _ _ (by decide), takeWhile_ws_all _ hws1']
  have hdrop2 : (ws1 ++ '[' :: c :: ']' :: (ws2 ++ g4)).dropWhile isWsChar
      = '[' :: c :: ']' :: (ws2 ++ g4) := by
    rw [dropWhile_ws_append ws1 _ hws1', List.dropWhile_cons,
      if_neg (by decide)]
  have htake2 : (ws2 ++ g4).takeWhile isWsChar ≠ [] := by
    rcases ws2 with _ | ⟨w, ws2'⟩
    · exact absurd rfl hws2
    · have hw : isWsChar w := hws2' w (List.mem_cons_self _ _)
      simp [List.takeWhile_cons, hw]
  have hdrop3 : (ws2 ++ g4).dropWhile isWsChar = g4.dropWhile isWsChar :=
    dropWhile_ws_append ws2 _ hws2'
  have hnl : noNL (g4.dropWhile isWsChar) = true :=
    noNL_of_sub g4 hg4 _ (List.dropWhile_sublist _)
  have hne1 : ws1.isEmpty = false := by
    rcases ws1 with _ | ⟨a, t⟩
    · exact absurd rfl hws1
    · rfl
  have hne2 : ((ws2 ++ g4).takeWhile isWsChar).isEmpty = false := by
    rcases hl : (ws2 ++ g4).takeWhile isWsChar with _ | ⟨a, t⟩
    · exact absurd hl htake2
    · rfl
  simp only [matchTaskLine, hdrop1, htake1, hdrop2, hdrop3, hm, hc, hnl, hne1,
    hne2, Bool.not_false, Bool.and_true, Bool.true_and, if_true]

theorem isEmpty_false_ne_nil (l : List Char) (h : l.isEmpty = false) :
    l ≠ [] := by
  intro h2
  subst h2
  simp at h

theorem matchTaskLine_inv (line : List Char) (c : Char) (g4 : List Char)
    (h : matchTaskLine line = some (c, g4)) :
    ∃ ws m ws1 ws2,
      line = ws ++ m :: (ws1 ++ '[' :: c :: ']' :: (ws2 ++ g4)) ∧
      (∀ x ∈ ws, isWsChar x) ∧ isMarkerChar m = true ∧ ws1 ≠ [] ∧
      (∀ x ∈ ws1, isWsChar x) ∧ isMarkChar c = true ∧ ws2 ≠ [] ∧
      (∀ x ∈ ws2, isWsChar x) ∧ noNL g4 = true ∧
      g4.dropWhile isWsChar = g4 := by
  simp only [matchTaskLine] at h
  split at h
  case _ m rest1 heq1 =>
    split at h
    case isTrue hcond1 =>
      split at h
      case _ c' rest3 heq2 =>
        split at h
        case isTrue hcond2 =>
          split at h
          case isTrue hnl =>
            injection h with h'
            injection h' with hc hg
            subst hc
            subst hg
            rw [Bool.and_eq_true, Bool.not_eq_true'] at hcond1 hcond2
            refine ⟨line.takeWhile isWsChar, m, rest1.takeWhile isWsChar,
              rest3.takeWhile isWsChar, ?_, ?_, hcond1.1,
              isEmpty_false_ne_nil _ hcond1.2, ?_, hcond2.1,
              isEmpty_false_ne_nil _ hcond2.2, ?_, hnl, dropWhile_idem _ _⟩
            · conv_lhs => rw [← List.takeWhile_append_dropWhile isWsChar line]
              rw [heq1]
              congr 1
              congr 1
              conv_lhs => rw [← List.takeWhile_append_dropWhile isWsChar rest1]
              rw [heq2]
              congr 2
              congr 1
              rw [List.takeWhile_append_dropWhile]
            · exact fun x hx => List.mem_takeWhile_imp hx
            · exact fun x hx => List.mem_takeWhile_imp hx
            · exact fun x hx => List.mem_takeWhile_imp hx
          case isFalse => exact absurd h (by simp)
        case isFalse => exact absurd h (by simp)
      case _ hne => exact absurd h (by simp)
    case isFalse => exact absurd h (by simp)
  case _ => exact absurd h (by simp)

theorem parseLine_inv (idx : Nat) (line : List Char) (t : ParsedTask)
    (h : parseLine idx line = some t) :
    ∃ c g4, matchTaskLine line = some (c, g4) ∧
      (trimList g4).isEmpty = false ∧
      t = ParsedTask.mk (idOf idx line) (trimList g4) (statusFromMark c)
        (extractOwner line) (extractDue line) (extractPriority line)
        (extractProject line) none (some (Int.ofNat idx)) (some line) := by
  simp only [parseLine] at h
  split at h
  case _ => exact absurd h (by simp)
  case _ c g4 heq =>
    split at h
    case isTrue => exact absurd h (by simp)
    case isFalse hne =>
      injection h with h
      exact ⟨c, g4, heq, by simpa using hne, h.symm⟩

theorem parseLine_of_match (idx : Nat) (line : List Char) (c : Char)
    (g4 : List Char) (hm : matchTaskLine line = some (c, g4))
    (ht : (trimList g4).isEmpty = false) :
    parseLine idx line = some (ParsedTask.mk (idOf idx line) (trimList g4)
      (statusFromMark c) (extractOwner line) (extractDue line)
      (extractPriority line) (extractProject line) none (some (Int.ofNat idx))
      (some line)) := by
  simp only [parseLine, hm, ht]
  rfl

theorem mem_parseTasks (content : List Char) (t : ParsedTask) :
    t ∈ parseTasksFromMarkdown content ↔
      ∃ i line, (splitLines content).get? i = some line ∧
        parseLine i line = some t := by
  simp only [parseTasksFromMarkdown, List.mem_filterMap]
  constructor
  · rintro ⟨⟨i, line⟩, hm, hp⟩
    exact ⟨i, line, List.mk_mem_enum_iff_get?.mp hm, hp⟩
  · rintro ⟨i, line, hg, hp⟩
    exact ⟨(i, line), List.mk_mem_enum_iff_get?.mpr hg, hp⟩

theorem trimList_dropWhile (l : List Char) :
    trimList (l.dropWhile isWsChar) = trimList l := by
  simp only [trimList, dropWhile_idem]

/-! ### Claim C7 -/

/-- Claim C7 (confirmed): `parseTasksFromMarkdown` produces a task for
line `i` exactly when that line decomposes as optional whitespace, a
marker from `-`/`*`/`+`, one-or-more spaces, `[`, a status character
from space/`x`/`X`/`/`, `]`, one-or-more spaces and a remainder that is
non-empty after trimming; in particular `"-[ ] foo"` (zero
marker-to-bracket spacing) yields no task. -/
theorem c7_task_line_grammar :
    (∀ (content : List Char) (i : Nat),
      (∃ t ∈ parseTasksFromMarkdown content, t.lineNumber = some (Int.ofNat i))
        ↔ (∃ line c g4, (splitLines content).get? i = some line ∧
            TaskLineShape line c g4 ∧ (trimList g4).isEmpty = false)) ∧
    parseTasksFromMarkdown (strL "-[ ] foo") = [] := by
  constructor
  · intro content i
    constructor
    · rintro ⟨t, ht, hln⟩
      obtain ⟨j, line, hg, hp⟩ := (mem_parseTasks content t).mp ht
      obtain ⟨c, g4, hm, htr, hteq⟩ := parseLine_inv j line t hp
      have hj : j = i := by
        rw [hteq] at hln
        simpa using hln
      subst hj
      obtain ⟨ws, m, ws1, ws2, hdec, hws, hmk, h1, h1', hc, h2, h2', hnl, _⟩ :=
        matchTaskLine_inv line c g4 hm
      exact ⟨line, c, g4, hg, ⟨ws, m, ws1, ws2, hdec, hws, hmk, h1, h1', hc,
        h2, h2', hnl⟩, htr⟩
    · rintro ⟨line, c, g4, hg, ⟨ws, m, ws1, ws2, hdec, hws, hmk, h1, h1', hc,
        h2, h2', hnl⟩, htr⟩
      have hm : matchTaskLine line = some (c, g4.dropWhile isWsChar) := by
        rw [hdec]
        exact matchTaskLine_construct ws ws1 ws2 g4 m c hws hmk h1 h1' hc h2
          h2' hnl
      have htr' : (trimList (g4.dropWhile isWsChar)).isEmpty = false := by
        rw [trimList_dropWhile]
        exact htr
      refine ⟨_, (mem_parseTasks content _).mpr
        ⟨i, line, hg, parseLine_of_match i line c _ hm htr'⟩, rfl⟩
  · decide

/-- Claim C7 witness: the grammar equivalence applied on a concrete
one-task document. -/
theorem c7_task_line_witness :
    ∃ line c g4, (splitLines (strL "- [ ] a")).get? 0 = some line ∧
      TaskLineShape line c g4 ∧ (trimList g4).isEmpty = false :=
  (c7_task_line_grammar.1 (strL "- [ ] a") 0).mp
    ⟨ParsedTask.mk (strL "0-- [ ] a") (strL "a") TaskStatus.todo none none
      none none none (some 0) (some (strL "- [ ] a")), by decide, by decide⟩

/-! ### Claim C6 -/

theorem replaceCheckbox_first (m c : Char) (pre suf : List Char)
    (hpre : '[' ∉ pre) (hc : isMarkChar c = true) :
    replaceCheckbox m (pre ++ '[' :: c :: ']' :: suf)
      = pre ++ '[' :: m :: ']' :: suf := by
  induction pre with
  | nil =>
    simp only [List.nil_append]
    rw [replaceCheckbox_bracket, if_pos (by simp [hc])]
  | cons a pre' ih =>
    have ha : a ≠ '[' := fun h => hpre (h ▸ List.mem_cons_self a pre')
    simp only [List.cons_append]
    rw [replaceCheckbox_not_bracket m a _ ha,
      ih (fun h => hpre (List.mem_cons_of_mem _ h))]

theorem not_bracket_of_ws (x : Char) (h : isWsChar x = true) : x ≠ '[' := by
  intro he
  subst he
  simp [isWsChar] at h

theorem not_bracket_of_marker (x : Char) (h : isMarkerChar x = true) :
    x ≠ '[' := by
  intro he
  subst he
  simp [isMarkerChar] at h

/-- Claim C6 (confirmed): when `updateTaskStatus` succeeds on a task whose
target line matches the checkbox grammar, the result replaces only the
single status character inside the first checkbox bracket group of that
line (`'[' ∉ pre` places the group first); every other line and every
other character of the line, including metadata tokens, is unchanged. -/
theorem c6_frame_property (content : List Char) (task : ParsedTask)
    (S : TaskStatus) (i : Nat) (line : List Char) (c : Char) (g4 : List Char)
    (ol : List Char)
    (hln : task.lineNumber = some (Int.ofNat i))
    (hol : task.originalLine = some ol) (hne : ol ≠ [])
    (hg : (splitLines content).get? i = some line)
    (hm : matchTaskLine line = some (c, g4)) :
    ∃ pre suf,
      line = pre ++ '[' :: c :: ']' :: suf ∧ '[' ∉ pre ∧
      updateTaskStatus content task S
        = .ok (joinLines ((splitLines content).set i
            (pre ++ '[' :: statusToMark S :: ']' :: suf))) := by
  obtain ⟨ws, m, ws1, ws2, hdec, hws, hmk, h1, h1', hc, h2, h2', hnl, _⟩ :=
    matchTaskLine_inv line c g4 hm
  have hlt : i < (splitLines content).length := (List.get?_eq_some.mp hg).1
  refine ⟨ws ++ m :: ws1, ws2 ++ g4, by simpa using hdec, ?_, ?_⟩
  · intro hmem
    rcases List.mem_append.mp hmem with h | h
    · exact not_bracket_of_ws _ (hws _ h) rfl
    · rcases List.mem_cons.mp h with h | h
      · exact not_bracket_of_marker m hmk h.symm
      · exact not_bracket_of_ws _ (h1' _ h) rfl
  · simp only [updateTaskStatus, hln, hol]
    rw [if_neg (by simpa [List.isEmpty_iff] using hne)]
    rw [if_neg (by simp; exact hlt)]
    have hold : (splitLines content).getD (Int.ofNat i).toNat [] = line := by
      have : (Int.ofNat i).toNat = i := rfl
      rw [this]
      show ((splitLines content).get? i).getD [] = line
      rw [hg]
      rfl
    rw [hold]
    have hline : line = (ws ++ m :: ws1) ++ '[' :: c :: ']' :: (ws2 ++ g4) := by
      simpa using hdec
    rw [hline, replaceCheckbox_first (statusToMark S) c _ _ ?_ hc]
    · rfl
    · intro hmem
      rcases List.mem_append.mp hmem with h | h
      · exact not_bracket_of_ws _ (hws _ h) rfl
      · rcases List.mem_cons.mp h with h | h
        · exact not_bracket_of_marker m hmk h.symm
        · exact not_bracket_of_ws _ (h1' _ h) rfl

/-- Claim C6 witness: the frame property on a concrete one-line content. -/
theorem c6_frame_witness :
    ∃ pre suf,
      strL "- [ ] a" = pre ++ '[' :: ' ' :: ']' :: suf ∧ '[' ∉ pre ∧
      updateTaskStatus (strL "- [ ] a")
        (ParsedTask.mk (strL "0-- [ ] a") (strL "a") TaskStatus.todo none none
          none none none (some 0) (some (strL "- [ ] a"))) TaskStatus.done
        = .ok (joinLines ((splitLines (strL "- [ ] a")).set 0
            (pre ++ '[' :: statusToMark TaskStatus.done :: ']' :: suf))) :=
  c6_frame_property (strL "- [ ] a")
    (ParsedTask.mk (strL "0-- [ ] a") (strL "a") TaskStatus.todo none none
      none none none (some 0) (some (strL "- [ ] a")))
    TaskStatus.done 0 (strL "- [ ] a") ' ' (strL "a") (strL "- [ ] a")
    rfl rfl (by decide) rfl (by decide)

/-! ### Metadata scanners are insensitive to the checkbox character -/

theorem prefixCI_append_stop (pat : List Char) :
    ∀ (xs : List Char) (y : Char) (ys ys' : List Char),
      (∀ d ∈ pat, ciEq y d = false) →
      prefixCI pat (xs ++ y :: ys) = prefixCI pat (xs ++ y :: ys') := by
  induction pat with
  | nil => intro xs y ys ys' _; rfl
  | cons p ps ih =>
    intro xs y ys ys' hy
    rcases xs with _ | ⟨a, xs'⟩
    · simp only [List.nil_append, prefixCI]
      rw [hy p (List.mem_cons_self _ _)]
      simp
    · simp only [List.cons_append, prefixCI, List.append_eq]
      rw [ih xs' y ys ys' (fun d hd => hy d (List.mem_cons_of_mem _ hd))]

theorem prefixCI_false_of_blocked (pat : List Char) :
    ∀ (xs : List Char) (y : Char) (ys : List Char),
      xs.length < pat.length → (∀ d ∈ pat, ciEq y d = false) →
      prefixCI pat (xs ++ y :: ys) = false := by
  induction pat with
  | nil => intro xs y ys hlen _; simp at hlen
  | cons p ps ih =>
    intro xs y ys hlen hy
    rcases xs with _ | ⟨a, xs'⟩
    · simp only [List.nil_append, prefixCI]
      rw [hy p (List.mem_cons_self _ _)]
      simp
    · simp only [List.cons_append, prefixCI, List.append_eq]
      rw [ih xs' y ys (by simpa using Nat.lt_of_succ_lt_succ (by simpa using hlen))
        (fun d hd => hy d (List.mem_cons_of_mem _ hd))]
      simp

theorem dateShape_mem (w : List Char) (h : dateShape w = true) :
    ∀ ch ∈ w, ch.isDigit = true ∨ ch = '-' := by
  match w with
  | [] => simp [dateShape] at h
  | [a] => simp [dateShape] at h
  | [a, b] => simp [dateShape] at h
  | [a, b, c] => simp [dateShape] at h
  | [a, b, c, d] => simp [dateShape] at h
  | [a, b, c, d, e] => simp [dateShape] at h
  | [a, b, c, d, e, f] => simp [dateShape] at h
  | [a, b, c, d, e, f, g] => simp [dateShape] at h
  | [a, b, c, d, e, f, g, h2] => simp [dateShape] at h
  | [a, b, c, d, e, f, g, h2, i] => simp [dateShape] at h
  | a :: b :: c :: d :: e :: f :: g :: h2 :: i :: j :: k :: rest =>
    simp [dateShape] at h
  | [a, b, c, d, e, f, g, h2, i, j] =>
    simp only [dateShape, Bool.and_eq_true, decide_eq_true_eq, and_assoc] at h
    intro ch hch
    simp only [List.mem_cons, List.not_mem_nil, or_false] at hch
    obtain ⟨h1, h2', h3, h4, h5, h6, h7, h8, h9, h10⟩ := h
    rcases hch with rfl | rfl | rfl | rfl | rfl | rfl | rfl | rfl | rfl | rfl
    all_goals first
      | (left; assumption)
      | (right; assumption)

theorem prefixCI_cons_false (p : Char) (ps : List Char) (a : Char)
    (t : List Char) (h : ciEq a p = false) :
    prefixCI (p :: ps) (a :: t) = false := by
  show (ciEq a p && prefixCI ps t) = false
  rw [h]
  simp

theorem dateAt_bracket (xs r r' : List Char) :
    dateAt (xs ++ '[' :: r) = dateAt (xs ++ '[' :: r') := by
  by_cases h : 10 ≤ xs.length
  · simp only [dateAt, List.take_append_of_le_length h]
  · push_neg at h
    have hb : ∀ s : List Char, '[' ∈ (xs ++ '[' :: s).take 10 := by
      intro s
      rw [List.take_append_eq_append_take]
      refine List.mem_append.mpr (Or.inr ?_)
      have h1 : 1 ≤ 10 - xs.length := by omega
      obtain ⟨k, hk⟩ := Nat.exists_eq_add_of_le h1
      rw [hk, Nat.add_comm 1 k, List.take_succ_cons]
      exact List.mem_cons_self _ _
    have hf : ∀ s : List Char, dateShape ((xs ++ '[' :: s).take 10) = false := by
      intro s
      cases hds : dateShape ((xs ++ '[' :: s).take 10)
      · rfl
      · exfalso
        rcases dateShape_mem _ hds '[' (hb s) with hd | hd
        · exact absurd hd (by decide)
        · exact absurd hd (by decide)
    simp only [dateAt, hf]
    simp

theorem dateAt_cons_none (a : Char) (t : List Char) (ha : a.isDigit = false)
    (ha2 : a ≠ '-') : dateAt (a :: t) = none := by
  have : dateShape ((a :: t).take 10) = false := by
    cases hds : dateShape ((a :: t).take 10)
    · rfl
    · exfalso
      have hmem : a ∈ (a :: t).take 10 := by
        rw [show (10 : Nat) = 9 + 1 from rfl, List.take_succ_cons]
        exact List.mem_cons_self _ _
      rcases dateShape_mem _ hds a hmem with h | h
      · rw [ha] at h
        exact Bool.noConfusion h
      · exact ha2 h
  simp only [dateAt, this]
  simp

theorem duePrefix1_bracket (xs r r' : List Char) :
    duePrefix1 (xs ++ '[' :: r) = duePrefix1 (xs ++ '[' :: r') := by
  unfold duePrefix1
  by_cases h3 : 3 ≤ xs.length
  · rw [prefixCI_append_stop (strL "due") xs '[' r r' (by decide),
      List.drop_append_of_le_length h3, List.drop_append_of_le_length h3]
    rcases hxs : xs.drop 3 with _ | ⟨a, t⟩
    · rfl
    · rfl
  · push_neg at h3
    rw [prefixCI_false_of_blocked (strL "due") xs '[' r h3 (by decide),
      prefixCI_false_of_blocked (strL "due") xs '[' r' h3 (by decide)]
    simp

theorem duePrefix1_false_short (xs r : List Char) (h : xs.length < 4) :
    duePrefix1 (xs ++ '[' :: r) = false := by
  unfold duePrefix1
  by_cases h3 : xs.length < 3
  · rw [prefixCI_false_of_blocked (strL "due") xs '[' r h3 (by decide)]
    simp
  · have hle : 3 ≤ xs.length := by omega
    rw [List.drop_append_of_le_length hle]
    have hd : xs.drop 3 = [] := List.drop_eq_nil_of_le (by omega)
    rw [hd, List.nil_append, show sepTest ('[' :: r) = false from rfl]
    simp

theorem duePrefix2_false_short (xs r : List Char) (h : xs.length < 5) :
    duePrefix2 (xs ++ '[' :: r) = false :=
  prefixCI_false_of_blocked (strL "@due(") xs '[' r h (by decide)

theorem duePrefix2_bracket (xs r r' : List Char) :
    duePrefix2 (xs ++ '[' :: r) = duePrefix2 (xs ++ '[' :: r') :=
  prefixCI_append_stop (strL "@due(") xs '[' r r' (by decide)

theorem dueAt_bracket (xs r r' : List Char) :
    dueAt (xs ++ '[' :: r) = dueAt (xs ++ '[' :: r') := by
  unfold dueAt
  rw [duePrefix1_bracket xs r r', duePrefix2_bracket xs r r',
    dateAt_bracket xs r r']
  by_cases hp1 : duePrefix1 (xs ++ '[' :: r') = true
  · have h4 : 4 ≤ xs.length := by
      by_contra hn
      rw [duePrefix1_false_short xs r' (by omega)] at hp1
      exact Bool.noConfusion hp1
    rw [List.drop_append_of_le_length h4, List.drop_append_of_le_length h4,
      dateAt_bracket (xs.drop 4) r r']
    by_cases hp2 : duePrefix2 (xs ++ '[' :: r') = true
    · have h5 : 5 ≤ xs.length := by
        by_contra hn
        rw [duePrefix2_false_short xs r' (by omega)] at hp2
        exact Bool.noConfusion hp2
      rw [List.drop_append_of_le_length h5, List.drop_append_of_le_length h5,
        dateAt_bracket (xs.drop 5) r r']
    · rw [Bool.not_eq_true] at hp2
      rw [hp2]
      simp
  · rw [Bool.not_eq_true] at hp1
    rw [hp1]
    simp only [Bool.false_eq_true, if_false]
    by_cases hp2 : duePrefix2 (xs ++ '[' :: r') = true
    · have h5 : 5 ≤ xs.length := by
        by_contra hn
        rw [duePrefix2_false_short xs r' (by omega)] at hp2
        exact Bool.noConfusion hp2
      rw [List.drop_append_of_le_length h5, List.drop_append_of_le_length h5,
        dateAt_bracket (xs.drop 5) r r']
    · rw [Bool.not_eq_true] at hp2
      rw [hp2]
      simp

theorem isMarkChar_cases (c : Char) (h : isMarkChar c = true) :
    c = ' ' ∨ c = 'x' ∨ c = 'X' ∨ c = '/' := by
  simpa [isMarkChar, Bool.or_eq_true, decide_eq_true_eq, or_assoc] using h

theorem dueAt_none_of_mark (cm : Char) (hc : isMarkChar cm = true)
    (t : List Char) : dueAt (cm :: t) = none := by
  have hfacts : ciEq cm 'd' = false ∧ ciEq cm '@' = false ∧
      cm.isDigit = false ∧ cm ≠ '-' := by
    rcases isMarkChar_cases cm hc with h | h | h | h <;> subst h <;>
      exact ⟨by decide, by decide, by decide, by decide⟩
  unfold dueAt
  have h1 : duePrefix1 (cm :: t) = false := by
    unfold duePrefix1
    rw [show prefixCI (strL "due") (cm :: t) = false from
      prefixCI_cons_false 'd' (strL "ue") cm t hfacts.1]
    simp
  have h2 : duePrefix2 (cm :: t) = false :=
    prefixCI_cons_false '@' (strL "due(") cm t hfacts.2.1
  have h3 : dateAt (cm :: t) = none :=
    dateAt_cons_none cm t hfacts.2.2.1 hfacts.2.2.2
  rw [h1, h2, h3]
  simp

theorem ownerAt_none_of_mark (cm : Char) (hc : isMarkChar cm = true)
    (t : List Char) : ownerAt (cm :: t) = none := by
  have h : cm ≠ '@' := by
    rcases isMarkChar_cases cm hc with h | h | h | h <;> subst h <;> decide
  simp only [ownerAt]
  rw [if_neg h]

theorem prioAt_none_of_mark (cm : Char) (hc : isMarkChar cm = true)
    (t : List Char) : prioAt (cm :: t) = none := by
  have h : cm ≠ '#' := by
    rcases isMarkChar_cases cm hc with h | h | h | h <;> subst h <;> decide
  simp only [prioAt]
  rw [if_neg h]

theorem projAt_none_head (prev : Option Char) (a : Char) (t : List Char)
    (ha : ciEq a 'p' = false) : projAt prev (a :: t) = none := by
  unfold projAt
  rw [show prefixCI (strL "project:") (a :: t) = false from
    prefixCI_cons_false 'p' (strL "roject:") a t ha]
  simp

theorem ownerAt_bracket (xs r r' : List Char) :
    ownerAt (xs ++ '[' :: r) = ownerAt (xs ++ '[' :: r') := by
  rcases xs with _ | ⟨a, xs'⟩
  · rfl
  · simp only [List.cons_append, ownerAt]
    rw [takeWhile_append_stop isWordHy xs' '[' r (by decide),
      takeWhile_append_stop isWordHy xs' '[' r' (by decide)]

theorem prioAt_bracket (xs r r' : List Char) :
    prioAt (xs ++ '[' :: r) = prioAt (xs ++ '[' :: r') := by
  rcases xs with _ | ⟨a, xs'⟩
  · rfl
  · simp only [List.cons_append, prioAt]
    rw [prefixCI_append_stop (strL "low") xs' '[' r r' (by decide),
      prefixCI_append_stop (strL "med") xs' '[' r r' (by decide),
      prefixCI_append_stop (strL "high") xs' '[' r r' (by decide)]

theorem projAt_bracket (prev : Option Char) (xs r r' : List Char) :
    projAt prev (xs ++ '[' :: r) = projAt prev (xs ++ '[' :: r') := by
  unfold projAt
  by_cases h8 : 8 ≤ xs.length
  · rw [prefixCI_append_stop (strL "project:") xs '[' r r' (by decide),
      List.drop_append_of_le_length h8, List.drop_append_of_le_length h8,
      takeWhile_append_stop isWordHy (xs.drop 8) '[' r (by decide),
      takeWhile_append_stop isWordHy (xs.drop 8) '[' r' (by decide)]
  · push_neg at h8
    rw [prefixCI_false_of_blocked (strL "project:") xs '[' r h8 (by decide),
      prefixCI_false_of_blocked (strL "project:") xs '[' r' h8 (by decide)]
    simp

theorem scanFirst_cons_some {α : Type} (f : List Char → Option α) (a : Char)
    (rest : List Char) (r : α) (h : f (a :: rest) = some r) :
    scanFirst f (a :: rest) = some r := by
  show (match f (a :: rest) with
        | some r => some r
        | none => scanFirst f rest) = some r
  rw [h]

theorem scanFirst_cons_none {α : Type} (f : List Char → Option α) (a : Char)
    (rest : List Char) (h : f (a :: rest) = none) :
    scanFirst f (a :: rest) = scanFirst f rest := by
  show (match f (a :: rest) with
        | some r => some r
        | none => scanFirst f rest) = scanFirst f rest
  rw [h]

theorem scanFirst_window {α : Type} (f : List Char → Option α) (c c' : Char)
    (suf : List Char)
    (hf : ∀ xs : List Char,
      f (xs ++ '[' :: c :: ']' :: suf) = f (xs ++ '[' :: c' :: ']' :: suf))
    (hcn : ∀ t, f (c :: t) = none) (hcn' : ∀ t, f (c' :: t) = none) :
    ∀ pre, scanFirst f (pre ++ '[' :: c :: ']' :: suf)
      = scanFirst f (pre ++ '[' :: c' :: ']' :: suf) := by
  intro pre
  induction pre with
  | nil =>
    have h0 := hf []
    simp only [List.nil_append] at h0 ⊢
    cases hv : f ('[' :: c' :: ']' :: suf) with
    | some r =>
      rw [scanFirst_cons_some f _ _ r (h0.trans hv),
        scanFirst_cons_some f _ _ r hv]
    | none =>
      rw [scanFirst_cons_none f _ _ (h0.trans hv),
        scanFirst_cons_none f _ _ hv,
        scanFirst_cons_none f _ _ (hcn _),
        scanFirst_cons_none f _ _ (hcn' _)]
  | cons a pre' ih =>
    have ha := hf (a :: pre')
    simp only [List.cons_append] at ha ⊢
    cases hv : f (a :: (pre' ++ '[' :: c' :: ']' :: suf)) with
    | some r =>
      rw [scanFirst_cons_some f _ _ r (ha.trans hv),
        scanFirst_cons_some f _ _ r hv]
    | none =>
      rw [scanFirst_cons_none f _ _ (ha.trans hv),
        scanFirst_cons_none f _ _ hv]
      exact ih

theorem findProjAux_cons_some (prev : Option Char) (a : Char)
    (rest : List Char) (r : List Char) (h : projAt prev (a :: rest) = some r) :
    findProjAux prev (a :: rest) = some r := by
  show (match projAt prev (a :: rest) with
        | some r => some r
        | none => findProjAux (some a) rest) = some r
  rw [h]

theorem findProjAux_cons_none (prev : Option Char) (a : Char)
    (rest : List Char) (h : projAt prev (a :: rest) = none) :
    findProjAux prev (a :: rest) = findProjAux (some a) rest := by
  show (match projAt prev (a :: rest) with
        | some r => some r
        | none => findProjAux (some a) rest) = findProjAux (some a) rest
  rw [h]

theorem findProjAux_window (c c' : Char) (suf : List Char)
    (hc : isMarkChar c = true) (hc' : isMarkChar c' = true) :
    ∀ (pre : List Char) (prev : Option Char),
      findProjAux prev (pre ++ '[' :: c :: ']' :: suf)
        = findProjAux prev (pre ++ '[' :: c' :: ']' :: suf) := by
  intro pre
  induction pre with
  | nil =>
    intro prev
    have hciC : ciEq c 'p' = false := by
      rcases isMarkChar_cases c hc with h | h | h | h <;> subst h <;> decide
    have hciC' : ciEq c' 'p' = false := by
      rcases isMarkChar_cases c' hc' with h | h | h | h <;> subst h <;> decide
    simp only [List.nil_append]
    rw [findProjAux_cons_none prev '[' _ (projAt_none_head _ _ _ (by decide)),
      findProjAux_cons_none prev '[' _ (projAt_none_head _ _ _ (by decide)),
      findProjAux_cons_none _ c _ (projAt_none_head _ _ _ hciC),
      findProjAux_cons_none _ c' _ (projAt_none_head _ _ _ hciC'),
      findProjAux_cons_none _ ']' _ (projAt_none_head _ _ _ (by decide)),
      findProjAux_cons_none _ ']' _ (projAt_none_head _ _ _ (by decide))]
  | cons a pre' ih =>
    intro prev
    have hpa := projAt_bracket prev (a :: pre') (c :: ']' :: suf)
      (c' :: ']' :: suf)
    simp only [List.cons_append] at hpa ⊢
    cases hv : projAt prev (a :: (pre' ++ '[' :: c' :: ']' :: suf)) with
    | some r =>
      rw [findProjAux_cons_some _ _ _ r (hpa.trans hv),
        findProjAux_cons_some _ _ _ r hv]
    | none =>
      rw [findProjAux_cons_none _ _ _ (hpa.trans hv),
        findProjAux_cons_none _ _ _ hv]
      exact ih (some a)

theorem extractOwner_window (pre suf : List Char) (c c' : Char)
    (hc : isMarkChar c = true) (hc' : isMarkChar c' = true) :
    extractOwner (pre ++ '[' :: c :: ']' :: suf)
      = extractOwner (pre ++ '[' :: c' :: ']' :: suf) :=
  scanFirst_window ownerAt c c' suf
    (fun xs => ownerAt_bracket xs (c :: ']' :: suf) (c' :: ']' :: suf))
    (ownerAt_none_of_mark c hc) (ownerAt_none_of_mark c' hc') pre

theorem extractDue_window (pre suf : List Char) (c c' : Char)
    (hc : isMarkChar c = true) (hc' : isMarkChar c' = true) :
    extractDue (pre ++ '[' :: c :: ']' :: suf)
      = extractDue (pre ++ '[' :: c' :: ']' :: suf) :=
  scanFirst_window dueAt c c' suf
    (fun xs => dueAt_bracket xs (c :: ']' :: suf) (c' :: ']' :: suf))
    (dueAt_none_of_mark c hc) (dueAt_none_of_mark c' hc') pre

theorem extractPriority_window (pre suf : List Char) (c c' : Char)
    (hc : isMarkChar c = true) (hc' : isMarkChar c' = true) :
    extractPriority (pre ++ '[' :: c :: ']' :: suf)
      = extractPriority (pre ++ '[' :: c' :: ']' :: suf) :=
  scanFirst_window prioAt c c' suf
    (fun xs => prioAt_bracket xs (c :: ']' :: suf) (c' :: ']' :: suf))
    (prioAt_none_of_mark c hc) (prioAt_none_of_mark c' hc') pre

theorem extractProject_window (pre suf : List Char) (c c' : Char)
    (hc : isMarkChar c = true) (hc' : isMarkChar c' = true) :
    extractProject (pre ++ '[' :: c :: ']' :: suf)
      = extractProject (pre ++ '[' :: c' :: ']' :: suf) :=
  findProjAux_window c c' suf hc hc' pre none

/-! ### Claim C1 -/

theorem statusFromMark_statusToMark (S : TaskStatus) :
    statusFromMark (statusToMark S) = S := by
  cases S <;> rfl

theorem isMark_statusToMark (S : TaskStatus) :
    isMarkChar (statusToMark S) = true := by
  cases S <;> decide

theorem mem_set_or (l : List (List Char)) (i : Nat) (x y : List Char)
    (h : y ∈ l.set i x) : y = x ∨ y ∈ l := by
  induction l generalizing i with
  | nil => simp at h
  | cons a t ih =>
    cases i with
    | zero =>
      rcases List.mem_cons.mp h with h | h
      · exact Or.inl h
      · exact Or.inr (List.mem_cons_of_mem _ h)
    | succ j =>
      rcases List.mem_cons.mp h with h | h
      · exact Or.inr (h ▸ List.mem_cons_self _ _)
      · rcases ih j h with h | h
        · exact Or.inl h
        · exact Or.inr (List.mem_cons_of_mem _ h)

/-- Claim C1 (amended): updating a parsed task's status and re-parsing
yields, at the same line, a task with the requested status whose
`title`, `owner`, `due`, `priority`, `project` and `lineNumber` are
unchanged; its `originalLine` is the updated line (the original line with
only the checkbox mark replaced), and its `id` is recomputed from the
updated line — the id embeds the first twenty characters of the trimmed
line, which include the changed mark, so `id` and `originalLine` are the
two fields that do change. -/
theorem c1_round_trip_amended (content : List Char) (t : ParsedTask)
    (S : TaskStatus) (ht : t ∈ parseTasksFromMarkdown content) :
    ∃ (i : Nat) (line nl u : List Char) (t' : ParsedTask),
      t.lineNumber = some (Int.ofNat i) ∧
      t.originalLine = some line ∧
      nl = replaceCheckbox (statusToMark S) line ∧
      updateTaskStatus content t S = .ok u ∧
      t' ∈ parseTasksFromMarkdown u ∧
      t'.lineNumber = t.lineNumber ∧
      t'.status = S ∧
      t'.title = t.title ∧
      t'.owner = t.owner ∧
      t'.due = t.due ∧
      t'.priority = t.priority ∧
      t'.project = t.project ∧
      t'.originalLine = some nl ∧
      t'.id = idOf i nl := by
  obtain ⟨i, line, hg, hp⟩ := (mem_parseTasks content t).mp ht
  obtain ⟨c, g4, hm, htr, hteq⟩ := parseLine_inv i line t hp
  obtain ⟨ws, m, ws1, ws2, hdec, hws, hmk, h1, h1', hcm, h2, h2', hnlg, hg4d⟩ :=
    matchTaskLine_inv line c g4 hm
  have hlt : i < (splitLines content).length := (List.get?_eq_some.mp hg).1
  have hline : line = (ws ++ m :: ws1) ++ '[' :: c :: ']' :: (ws2 ++ g4) := by
    simpa using hdec
  have hpre : '[' ∉ ws ++ m :: ws1 := by
    intro hmem
    rcases List.mem_append.mp hmem with h | h
    · exact not_bracket_of_ws _ (hws _ h) rfl
    · rcases List.mem_cons.mp h with h | h
      · exact not_bracket_of_marker m hmk h.symm
      · exact not_bracket_of_ws _ (h1' _ h) rfl
  have hln : t.lineNumber = some (Int.ofNat i) := by rw [hteq]
  have hol : t.originalLine = some line := by rw [hteq]
  have hlne : line ≠ [] := by
    intro h
    rw [hline] at h
    simp at h
  set mark := statusToMark S with hmarkdef
  have hmark : isMarkChar mark = true := isMark_statusToMark S
  set nl := (ws ++ m :: ws1) ++ '[' :: mark :: ']' :: (ws2 ++ g4) with hnldef
  have hrepl : replaceCheckbox mark line = nl := by
    rw [hline]
    exact replaceCheckbox_first mark c _ _ hpre hcm
  have hupd : updateTaskStatus content t S
      = .ok (joinLines ((splitLines content).set i nl)) := by
    simp only [updateTaskStatus, hln, hol]
    rw [if_neg (by simpa [List.isEmpty_iff] using hlne)]
    rw [if_neg (by simp; exact hlt)]
    have hold : (splitLines content).getD (Int.ofNat i).toNat [] = line := by
      show ((splitLines content).get? i).getD [] = line
      rw [hg]
      rfl
    rw [hold, hrepl]
    rfl
  have hlinemem : line ∈ splitLines content := List.get?_mem hg
  have hline_nn : '\n' ∉ line := mem_splitLines_no_newline content line hlinemem
  have hnl_nn : '\n' ∉ nl := by
    intro hmem
    rw [hnldef] at hmem
    rcases List.mem_append.mp hmem with h | h
    · exact hline_nn (by
        rw [hline]
        exact List.mem_append.mpr (Or.inl h))
    · rcases List.mem_cons.mp h with h | h
      · exact absurd h (by decide)
      · rcases List.mem_cons.mp h with h | h
        · rw [hmarkdef] at h
          revert h
          cases S <;> decide
        · rcases List.mem_cons.mp h with h | h
          · exact absurd h (by decide)
          · exact hline_nn (by
              rw [hline]
              exact List.mem_append.mpr (Or.inr
                (List.mem_cons_of_mem _ (List.mem_cons_of_mem _
                  (List.mem_cons_of_mem _ h)))))
  have hsplit : splitLines (joinLines ((splitLines content).set i nl))
      = (splitLines content).set i nl := by
    refine splitLines_joinLines _ ?_ ?_
    · intro h
      have hlen := congrArg List.length h
      simp only [List.length_set, List.length_nil] at hlen
      exact splitLines_ne_nil content (List.length_eq_zero.mp hlen)
    · intro l' hl'
      rcases mem_set_or _ _ _ _ hl' with h | h
      · rw [h]
        exact hnl_nn
      · exact mem_splitLines_no_newline content l' h
  have hmatch' : matchTaskLine nl = some (mark, g4) := by
    have := matchTaskLine_construct ws ws1 ws2 g4 m mark hws hmk h1 h1' hmark
      h2 h2' hnlg
    rw [hg4d] at this
    rw [hnldef]
    simpa using this
  have htr' : (trimList g4).isEmpty = false := htr
  have hpl' := parseLine_of_match i nl mark g4 hmatch' htr'
  refine ⟨i, line, nl, joinLines ((splitLines content).set i nl),
    ParsedTask.mk (idOf i nl) (trimList g4) (statusFromMark mark)
      (extractOwner nl) (extractDue nl) (extractPriority nl)
      (extractProject nl) none (some (Int.ofNat i)) (some nl),
    hln, hol, hrepl.symm, hupd, ?_, ?_, ?_, ?_, ?_, ?_, ?_, ?_, rfl, rfl⟩
  · refine (mem_parseTasks _ _).mpr ⟨i, nl, ?_, hpl'⟩
    rw [hsplit, List.get?_eq_getElem?]
    exact List.getElem?_set_eq_of_lt nl hlt
  · rw [hln]
  · exact statusFromMark_statusToMark S
  · rw [hteq]
  · show extractOwner nl = t.owner
    rw [hteq, hnldef, hline]
    exact extractOwner_window _ _ mark c hmark hcm
  · show extractDue nl = t.due
    rw [hteq, hnldef, hline]
    exact extractDue_window _ _ mark c hmark hcm
  · show extractPriority nl = t.priority
    rw [hteq, hnldef, hline]
    exact extractPriority_window _ _ mark c hmark hcm
  · show extractProject nl = t.project
    rw [hteq, hnldef, hline]
    exact extractProject_window _ _ mark c hmark hcm

/-- Claim C1 counterexample: toggling `"- [ ] a"` to done and re-parsing
yields a task at the same line whose `id` and `originalLine` differ from
the original task's, so "every other field unchanged" fails as stated. -/
theorem c1_round_trip_counterexample :
    parseTasksFromMarkdown (strL "- [ ] a")
      = [ParsedTask.mk (strL "0-- [ ] a") (strL "a") TaskStatus.todo none
          none none none none (some 0) (some (strL "- [ ] a"))] ∧
    updateTaskStatus (strL "- [ ] a")
      (ParsedTask.mk (strL "0-- [ ] a") (strL "a") TaskStatus.todo none
        none none none none (some 0) (some (strL "- [ ] a")))
      TaskStatus.done = .ok (strL "- [x] a") ∧
    parseTasksFromMarkdown (strL "- [x] a")
      = [ParsedTask.mk (strL "0-- [x] a") (strL "a") TaskStatus.done none
          none none none none (some 0) (some (strL "- [x] a"))] ∧
    strL "0-- [x] a" ≠ strL "0-- [ ] a" ∧
    some (strL "- [x] a") ≠ some (strL "- [ ] a") :=
  ⟨by decide, rfl, by decide, by decide, by decide⟩

/-- Claim C1 witness: the amended round-trip statement at a concrete
one-task document. -/
theorem c1_round_trip_witness :
    ∃ (i : Nat) (line nl u : List Char) (t' : ParsedTask),
      (ParsedTask.mk (strL "0-- [ ] a") (strL "a") TaskStatus.todo none
        none none none none (some 0)
        (some (strL "- [ ] a"))).lineNumber = some (Int.ofNat i) ∧
      (ParsedTask.mk (strL "0-- [ ] a") (strL "a") TaskStatus.todo none
        none none none none (some 0)
        (some (strL "- [ ] a"))).originalLine = some line ∧
      nl = replaceCheckbox (statusToMark TaskStatus.done) line ∧
      updateTaskStatus (strL "- [ ] a")
        (ParsedTask.mk (strL "0-- [ ] a") (strL "a") TaskStatus.todo none
          none none none none (some 0) (some (strL "- [ ] a")))
        TaskStatus.done = .ok u ∧
      t' ∈ parseTasksFromMarkdown u ∧
      t'.lineNumber = (ParsedTask.mk (strL "0-- [ ] a") (strL "a")
        TaskStatus.todo none none none none none (some 0)
        (some (strL "- [ ] a"))).lineNumber ∧
      t'.status = TaskStatus.done ∧
      t'.title = (ParsedTask.mk (strL "0-- [ ] a") (strL "a")
        TaskStatus.todo none none none none none (some 0)
        (some (strL "- [ ] a"))).title ∧
      t'.owner = (ParsedTask.mk (strL "0-- [ ] a") (strL "a")
        TaskStatus.todo none none none none none (some 0)
        (some (strL "- [ ] a"))).owner ∧
      t'.due = (ParsedTask.mk (strL "0-- [ ] a") (strL "a")
        TaskStatus.todo none none none none none (some 0)
        (some (strL "- [ ] a"))).due ∧
      t'.priority = (ParsedTask.mk (strL "0-- [ ] a") (strL "a")
        TaskStatus.todo none none none none none (some 0)
        (some (strL "- [ ] a"))).priority ∧
      t'.project = (ParsedTask.mk (strL "0-- [ ] a") (strL "a")
        TaskStatus.todo none none none none none (some 0)
        (some (strL "- [ ] a"))).project ∧
      t'.originalLine = some nl ∧
      t'.id = idOf i nl :=
  c1_round_trip_amended (strL "- [ ] a")
    (ParsedTask.mk (strL "0-- [ ] a") (strL "a") TaskStatus.todo none none
      none none none (some 0) (some (strL "- [ ] a")))
    TaskStatus.done (by decide)

/-! ### Claim C8 -/

theorem hashtagMatches_run_ne (l : List Char) :
    ∀ (j : Nat) (i : Nat) (run : List Char),
      (i, run) ∈ hashtagMatchesAux j l → run ≠ [] := by
  induction l with
  | nil => intro j i run h; simp [hashtagMatchesAux] at h
  | cons a rest ih =>
    intro j i run h
    simp only [hashtagMatchesAux] at h
    by_cases ha : a = '#'
    · rw [if_pos ha] at h
      by_cases hr : (rest.takeWhile isWordHy).isEmpty
      · rw [if_pos hr] at h
        exact ih _ _ _ h
      · rw [if_neg hr] at h
        rcases List.mem_cons.mp h with h | h
        · injection h with h1 h2
          subst h2
          intro hc
          rw [hc] at hr
          exact hr rfl
        · exact ih _ _ _ h
    · rw [if_neg ha] at h
      exact ih _ _ _ h

/-- Claim C8 (confirmed): a `#tag` on a line strictly inside a
triple-backtick fence (the fence flag is on after the preceding lines and
the line itself is not a fence line) is omitted by `extractHashtags` —
the whole document extracts the same tags as the document without that
line — while `extractHashtagsFromLine` applied to that single line does
return it, so the multi-line and line-scoped extractors differ on such
input.  The tag is assumed not to be contributed by any other line. -/
theorem c8_fence_exclusion (pre post : List (List Char)) (tagLine : List Char)
    (t : List Char) (i : Nat) (run : List Char)
    (hstate : (pre.foldl tagStep ([], false)).2 = true)
    (hnf : isFenceLine tagLine = false)
    (hrun : (i, run) ∈ hashtagMatchesAux 0 tagLine)
    (hns : inSpans i (codeSpans tagLine) = false)
    (ht : t = toLowerList run)
    (hnn : ∀ l ∈ pre ++ tagLine :: post, '\n' ∉ l)
    (habs : t ∉ extractHashtags (joinLines (pre ++ post))) :
    t ∉ extractHashtags (joinLines (pre ++ tagLine :: post)) ∧
    t ∈ extractHashtagsFromLine tagLine := by
  have hpre_ne : pre ≠ [] := by
    intro h
    rw [h] at hstate
    simp [List.foldl] at hstate
  constructor
  · have hsplit1 : splitLines (joinLines (pre ++ tagLine :: post))
        = pre ++ tagLine :: post :=
      splitLines_joinLines _ (by simp) hnn
    have hsplit2 : splitLines (joinLines (pre ++ post)) = pre ++ post := by
      refine splitLines_joinLines _ ?_ ?_
      · intro h
        rcases List.append_eq_nil.mp h with ⟨h1, _⟩
        exact hpre_ne h1
      · intro l hl
        rcases List.mem_append.mp hl with h | h
        · exact hnn l (List.mem_append.mpr (Or.inl h))
        · exact hnn l (List.mem_append.mpr (Or.inr (List.mem_cons_of_mem _ h)))
    have hskip : tagStep (pre.foldl tagStep ([], false)) tagLine
        = pre.foldl tagStep ([], false) := by
      have hgen : ∀ acc : List (List Char) × Bool, acc.2 = true →
          tagStep acc tagLine = acc := by
        intro acc hin
        unfold tagStep
        rw [if_neg (by rw [hnf]; exact Bool.false_ne_true), if_pos hin]
      exact hgen _ hstate
    have heq : extractHashtags (joinLines (pre ++ tagLine :: post))
        = extractHashtags (joinLines (pre ++ post)) := by
      unfold extractHashtags
      rw [hsplit1, hsplit2, List.foldl_append, List.foldl_append,
        List.foldl_cons, hskip]
    rw [heq]
    exact habs
  · have hrne : run ≠ [] := hashtagMatches_run_ne tagLine 0 i run hrun
    have htl : (toLowerList run).isEmpty = false := by
      rcases run with _ | ⟨a, r⟩
      · exact absurd rfl hrne
      · rfl
    refine List.mem_append.mpr (Or.inl ?_)
    unfold lineHashtags
    refine List.mem_filterMap.mpr ⟨(i, run), hrun, ?_⟩
    rw [if_neg (by rw [hns]; exact Bool.false_ne_true)]
    simp only [htl, ht]
    simp

/-- Claim C8 witness: a fenced `#secret` is excluded by the multi-line
extractor but returned by the line-scoped one. -/
theorem c8_fence_witness :
    strL "secret" ∉ extractHashtags
      (joinLines ([strL "```"] ++ strL "#secret" :: [strL "```"])) ∧
    strL "secret" ∈ extractHashtagsFromLine (strL "#secret") :=
  c8_fence_exclusion [strL "```"] [strL "```"] (strL "#secret")
    (strL "secret") 0 (strL "secret") (by decide) (by decide) (by decide)
    (by decide) (by decide) (by decide) (by decide)

/-! ### Claim C9 -/

theorem mapGet_mapSet_eq {α : Type} (m : List (List Char × α)) (k : List Char)
    (v : α) : mapGet (mapSet m k v) k = some v := by
  induction m with
  | nil => simp [mapGet, mapSet, List.find?]
  | cons e rest ih =>
    by_cases he : e.1 == k
    · simp only [mapSet, he, if_pos rfl]
      simp [mapGet, List.find?]
    · simp only [mapSet]
      rw [if_neg (by simp [he])]
      simp only [mapGet, List.find?, he]
      exact ih

theorem mapGet_mapSet_ne {α : Type} (m : List (List Char × α))
    (k k' : List Char) (v : α) (h : (k' == k) = false) :
    mapGet (mapSet m k v) k' = mapGet m k' := by
  induction m with
  | nil =>
    simp only [mapSet, mapGet, List.find?]
    rw [show ((k, v).1 == k') = false from by
      simpa [BEq.comm] using h]
  | cons e rest ih =>
    by_cases he : e.1 == k
    · simp only [mapSet, he, if_pos rfl]
      simp only [mapGet, List.find?]
      rw [show ((k, v).1 == k') = false from by simpa [BEq.comm] using h,
        show (e.1 == k') = false from by
          have h1 : e.1 = k := by simpa using he
          rw [h1]
          simpa [BEq.comm] using h]
    · simp only [mapSet]
      rw [if_neg (by simp [he])]
      simp only [mapGet, List.find?]
      cases hek : (e.1 == k') with
      | true => rfl
      | false => exact ih

theorem buildTitleMap_invariant (fl : List NoteMeta) :
    ∀ (m0 : List (List Char × List NoteMeta)) (k : List Char),
      mapGet (fl.foldl (fun m n =>
          mapSet m (titleKey n) ((mapGet m (titleKey n)).getD [] ++ [n])) m0) k
        = (match titleFilter fl k with
           | [] => mapGet m0 k
           | l => some ((mapGet m0 k).getD [] ++ l)) := by
  induction fl with
  | nil => intro m0 k; rfl
  | cons n fl' ih =>
    intro m0 k
    rw [List.foldl_cons]
    rw [ih]
    by_cases hk : (titleKey n == k) = true
    · have hk' : titleKey n = k := by simpa using hk
      have hget : mapGet (mapSet m0 (titleKey n)
          ((mapGet m0 (titleKey n)).getD [] ++ [n])) k
          = some ((mapGet m0 k).getD [] ++ [n]) := by
        rw [hk']
        exact mapGet_mapSet_eq m0 k _
      have hfil : titleFilter (n :: fl') k = n :: titleFilter fl' k := by
        simp [titleFilter, List.filter_cons, hk]
      rw [hfil]
      rcases hff : titleFilter fl' k with _ | ⟨x, rest⟩
      · simp only [hff, hget]
      · simp only [hff, hget]
        simp
    · have hfil : titleFilter (n :: fl') k = titleFilter fl' k := by
        simp only [titleFilter, List.filter_cons]
        rw [if_neg (by simpa using hk)]
      have hget : mapGet (mapSet m0 (titleKey n)
          ((mapGet m0 (titleKey n)).getD [] ++ [n])) k = mapGet m0 k :=
        mapGet_mapSet_ne m0 (titleKey n) k _ (by
          cases hkk : (k == titleKey n) with
          | true =>
            exfalso
            apply hk
            have : k = titleKey n := by simpa using hkk
            simp [this]
          | false => rfl)
      rw [hfil, hget]

theorem buildTitleMap_get (fl : List NoteMeta) (k : List Char) :
    mapGet (buildTitleMap fl) k
      = (match titleFilter fl k with
         | [] => none
         | l => some l) := by
  unfold buildTitleMap
  rw [buildTitleMap_invariant fl [] k]
  rcases titleFilter fl k with _ | ⟨x, rest⟩
  · rfl
  · rfl

/-- Claim C9 (confirmed): title matching is attempted only for link
targets with no path separator after normalization — with a slash the
result is independent of the title map — and a bare-name target that
misses all path variations resolves to the first file note in flattened
(depth-first) order whose normalized title equals the normalized target,
keyed by the normalized target, even when several notes share the
title. -/
theorem c9_title_resolution :
    (∀ (notes : NoteList) (linkText : List Char),
      (normalizePath linkText).contains '/' = true →
      resolveLink (buildTitleMap (flattenList notes))
          (buildPathMap (flattenList notes)) linkText
        = resolveLink [] (buildPathMap (flattenList notes)) linkText) ∧
    (∀ (notes : NoteList) (linkText : List Char),
      (normalizePath linkText).contains '/' = false →
      (∀ v ∈ pathVariations (normalizePath linkText),
        mapGet (buildPathMap (flattenList notes)) v = none) →
      resolveLink (buildTitleMap (flattenList notes))
          (buildPathMap (flattenList notes)) linkText
        = ((flattenList notes).find?
            (fun m => titleKey m == normalizePath linkText)).map
            (fun m => (normalizePath linkText, m))) := by
  constructor
  · intro notes linkText hcon
    simp only [resolveLink, hcon]
    rfl
  · intro notes linkText hcon hmiss
    have h1 : (pathVariations (normalizePath linkText)).findSome?
        (fun v => (mapGet (buildPathMap (flattenList notes)) v).map
          (fun n => (v, n))) = none := by
      refine List.findSome?_eq_none_iff.mpr (fun v hv => ?_)
      rw [hmiss v hv]
      rfl
    simp only [resolveLink, hcon, h1]
    rw [buildTitleMap_get]
    rw [← List.filter_head?]
    rcases hf : titleFilter (flattenList notes) (normalizePath linkText)
      with _ | ⟨x, rest⟩
    · simp only [titleFilter] at hf
      rw [hf]
      rfl
    · simp only [titleFilter] at hf ⊢
      rw [hf]
      rfl

/-- Claim C9 witness: a bare-name link `[[t]]` in a vault whose two notes
both have title `t` resolves to the first note in flatten order. -/
theorem c9_title_resolution_witness :
    resolveLink
      (buildTitleMap (flattenList (NoteList.cons
        (NoteMeta.mk (strL "a.md") (strL "a.md") (strL "t")
          (some NoteType.file) Children.undef)
        (NoteList.cons
          (NoteMeta.mk (strL "b.md") (strL "b.md") (strL "t")
            (some NoteType.file) Children.undef) NoteList.nil))))
      (buildPathMap (flattenList (NoteList.cons
        (NoteMeta.mk (strL "a.md") (strL "a.md") (strL "t")
          (some NoteType.file) Children.undef)
        (NoteList.cons
          (NoteMeta.mk (strL "b.md") (strL "b.md") (strL "t")
            (some NoteType.file) Children.undef) NoteList.nil))))
      (strL "t")
      = ((flattenList (NoteList.cons
          (NoteMeta.mk (strL "a.md") (strL "a.md") (strL "t")
            (some NoteType.file) Children.undef)
          (NoteList.cons
            (NoteMeta.mk (strL "b.md") (strL "b.md") (strL "t")
              (some NoteType.file) Children.undef) NoteList.nil))).find?
          (fun m => titleKey m == normalizePath (strL "t"))).map
          (fun m => (normalizePath (strL "t"), m)) :=
  c9_title_resolution.2
    (NoteList.cons
      (NoteMeta.mk (strL "a.md") (strL "a.md") (strL "t")
        (some NoteType.file) Children.undef)
      (NoteList.cons
        (NoteMeta.mk (strL "b.md") (strL "b.md") (strL "t")
          (some NoteType.file) Children.undef) NoteList.nil))
    (strL "t") (by decide) (by decide)

/-! ### Claim C4 -/

theorem mapSet_mem {α : Type} (m : List (List Char × α)) (k : List Char)
    (v : α) (e : List Char × α) (h : e ∈ mapSet m k v) :
    e = (k, v) ∨ e ∈ m := by
  induction m with
  | nil =>
    simp only [mapSet] at h
    rcases List.mem_cons.mp h with h | h
    · exact Or.inl h
    · simp at h
  | cons e' rest ih =>
    simp only [mapSet] at h
    by_cases he : e'.1 == k
    · rw [if_pos he] at h
      rcases List.mem_cons.mp h with h | h
      · exact Or.inl h
      · exact Or.inr (List.mem_cons_of_mem _ h)
    · rw [if_neg he] at h
      rcases List.mem_cons.mp h with h | h
      · exact Or.inr (h ▸ List.mem_cons_self _ _)
      · rcases ih h with h | h
        · exact Or.inl h
        · exact Or.inr (List.mem_cons_of_mem _ h)

theorem mapGet_sound {α : Type} (m : List (List Char × α)) (k : List Char)
    (v : α) (h : mapGet m k = some v) : (k, v) ∈ m := by
  simp only [mapGet, Option.map_eq_some'] at h
  obtain ⟨e, he, hv⟩ := h
  have hmem := List.mem_of_find?_eq_some he
  have hk : e.1 = k := by simpa using List.find?_some he
  have : e = (k, v) := by
    rcases e with ⟨e1, e2⟩
    simp only at hk hv
    rw [hk, hv]
  exact this ▸ hmem

theorem buildPathMap_sound (fl : List NoteMeta) :
    ∀ (m0 : List (List Char × NoteMeta)) (e : List Char × NoteMeta),
      e ∈ fl.foldl (fun m n => mapSet m (pathKeyCI n) n) m0 →
      e ∈ m0 ∨ (e.2 ∈ fl ∧ pathKeyCI e.2 = e.1) := by
  induction fl with
  | nil => intro m0 e h; exact Or.inl h
  | cons n fl' ih =>
    intro m0 e h
    rw [List.foldl_cons] at h
    rcases ih _ e h with h | ⟨h1, h2⟩
    · rcases mapSet_mem _ _ _ _ h with h | h
      · refine Or.inr ⟨?_, ?_⟩
        · rw [h]
          exact List.mem_cons_self _ _
        · rw [h]
      · exact Or.inl h
    · exact Or.inr ⟨List.mem_cons_of_mem _ h1, h2⟩

theorem buildTitleMap_sound (fl : List NoteMeta) (k : List Char)
    (ms : List NoteMeta) (h : mapGet (buildTitleMap fl) k = some ms)
    (ln : NoteMeta) (hln : ln ∈ ms) : ln ∈ fl ∧ titleKey ln = k := by
  rw [buildTitleMap_get] at h
  rcases hf : titleFilter fl k with _ | ⟨x, rest⟩
  · rw [hf] at h
    exact absurd h (by simp)
  · rw [hf] at h
    have hms : ms = x :: rest := by
      injection h with h'
      exact h'.symm
    rw [hms, ← hf] at hln
    have := List.mem_filter.mp hln
    exact ⟨this.1, by simpa using this.2⟩

theorem resolveLink_sound (tm : List (List Char × List NoteMeta))
    (pm : List (List Char × NoteMeta)) (l K : List Char) (ln : NoteMeta)
    (h : resolveLink tm pm l = some (K, ln)) : ResolveSound tm pm K ln := by
  simp only [resolveLink] at h
  split at h
  case _ r heq =>
    injection h with h'
    subst h'
    obtain ⟨v, hvmem, hfv⟩ := List.exists_of_findSome?_eq_some heq
    rw [Option.map_eq_some'] at hfv
    obtain ⟨n, hget, hvn⟩ := hfv
    injection hvn with hv1 hv2
    subst hv1
    subst hv2
    exact Or.inl (mapGet_sound pm _ _ hget)
  case _ heq0 =>
    split at h
    case _ r heq =>
      injection h with h'
      subst h'
      by_cases hc : (normalizePath l).contains '/' = true
      · rw [if_pos hc] at heq
        have hmem := List.mem_of_find?_eq_some heq
        exact Or.inl hmem
      · rw [if_neg hc] at heq
        exact absurd heq (by simp)
    case _ heq1 =>
      split at h
      case isTrue hcon =>
        split at h
        case _ ms n rest hget =>
          injection h with h'
          injection h' with hK hln'
          subst hK
          subst hln'
          exact Or.inr ⟨n :: rest, hget, List.mem_cons_self _ _⟩
        case _ => exact absurd h (by simp)
      case isFalse => exact absurd h (by simp)

theorem addBacklink_invariant (P : List Char → NoteMeta → Prop)
    (idx : List (List Char × List NoteMeta)) (note : NoteMeta)
    (r : List Char × NoteMeta)
    (hidx : ∀ K ls x, (K, ls) ∈ idx → x ∈ ls → P K x)
    (hr : (r.2.id == note.id) = false → P r.1 note) :
    ∀ K ls x, (K, ls) ∈ addBacklink idx note r → x ∈ ls → P K x := by
  intro K ls x hmem hx
  simp only [addBacklink] at hmem
  by_cases h1 : r.1.isEmpty = true
  · rw [if_pos h1] at hmem
    exact hidx K ls x hmem hx
  · rw [if_neg h1] at hmem
    by_cases h2 : (r.2.id == note.id) = true
    · rw [if_pos h2] at hmem
      exact hidx K ls x hmem hx
    · rw [if_neg h2] at hmem
      by_cases h3 : ((mapGet idx r.1).getD []).any
          (fun n => n.id == note.id) = true
      · rw [if_pos h3] at hmem
        exact hidx K ls x hmem hx
      · rw [if_neg h3] at hmem
        rcases mapSet_mem _ _ _ _ hmem with h | h
        · injection h with hK hls
          subst hK
          subst hls
          rcases List.mem_append.mp hx with hx | hx
          · rcases hg : mapGet idx r.1 with _ | ls'
            · rw [hg] at hx
              simp at hx
            · rw [hg] at hx
              exact hidx r.1 ls' x (mapGet_sound idx r.1 ls' hg) hx
          · have hxn : x = note := by simpa using hx
            rw [hxn]
            exact hr (Bool.not_eq_true _ ▸ h2)
        · exact hidx K ls x h hx

theorem processNote_invariant (tm : List (List Char × List NoteMeta))
    (pm : List (List Char × NoteMeta)) (note : NoteMeta)
    (content : List Char) (idx : List (List Char × List NoteMeta))
    (hidx : ∀ K ls x, (K, ls) ∈ idx → x ∈ ls →
      ∃ ln, ResolveSound tm pm K ln ∧ ln.id ≠ x.id) :
    ∀ K ls x, (K, ls) ∈ processNote tm pm idx note content → x ∈ ls →
      ∃ ln, ResolveSound tm pm K ln ∧ ln.id ≠ x.id := by
  unfold processNote
  by_cases hc : content.isEmpty = true
  · rw [if_pos hc]
    exact hidx
  · rw [if_neg hc]
    have main : ∀ (links : List (List Char))
        (idx0 : List (List Char × List NoteMeta)),
        (∀ K ls x, (K, ls) ∈ idx0 → x ∈ ls →
          ∃ ln, ResolveSound tm pm K ln ∧ ln.id ≠ x.id) →
        ∀ K ls x, (K, ls) ∈ links.foldl (fun idx linkText =>
            match resolveLink tm pm linkText with
            | some r => addBacklink idx note r
            | none => idx) idx0 → x ∈ ls →
          ∃ ln, ResolveSound tm pm K ln ∧ ln.id ≠ x.id := by
      intro links
      induction links with
      | nil => intro idx0 h0; exact h0
      | cons lt rest ih =>
        intro idx0 h0
        rw [List.foldl_cons]
        refine ih _ ?_
        rcases hres : resolveLink tm pm lt with _ | r
        · exact h0
        · refine addBacklink_invariant _ _ _ _ h0 ?_
          intro hbeq
          refine ⟨r.2, resolveLink_sound tm pm lt r.1 r.2 hres, ?_⟩
          intro heq
          rw [heq] at hbeq
          simp at hbeq
    exact main _ idx hidx

theorem buildBacklinksIndex_sound (notes : NoteList)
    (loader : List Char → List Char) :
    ∀ K ls x, (K, ls) ∈ buildBacklinksIndex notes loader → x ∈ ls →
      ∃ ln, ResolveSound (buildTitleMap (flattenList notes))
        (buildPathMap (flattenList notes)) K ln ∧ ln.id ≠ x.id := by
  have main : ∀ (l : List NoteMeta)
      (idx0 : List (List Char × List NoteMeta)),
      (∀ K ls x, (K, ls) ∈ idx0 → x ∈ ls →
        ∃ ln, ResolveSound (buildTitleMap (flattenList notes))
          (buildPathMap (flattenList notes)) K ln ∧ ln.id ≠ x.id) →
      ∀ K ls x, (K, ls) ∈ l.foldl (fun idx n =>
          processNote (buildTitleMap (flattenList notes))
            (buildPathMap (flattenList notes)) idx n (loader n.path)) idx0 →
        x ∈ ls →
        ∃ ln, ResolveSound (buildTitleMap (flattenList notes))
          (buildPathMap (flattenList notes)) K ln ∧ ln.id ≠ x.id := by
    intro l
    induction l with
    | nil => intro idx0 h0; exact h0
    | cons m rest ih =>
      intro idx0 h0
      rw [List.foldl_cons]
      exact ih _ (processNote_invariant _ _ _ _ _ h0)
  intro K ls x hmem hx
  exact main (flattenList notes) [] (by intro K' ls' x' h; simp at h) K ls x
    hmem hx

theorem foldl_mapSet_values (l : List NoteMeta) :
    ∀ (m0 : List (List Char × NoteMeta)) (e : List Char × NoteMeta),
      e ∈ l.foldl (fun m b => mapSet m b.id b) m0 → e ∈ m0 ∨ e.2 ∈ l := by
  induction l with
  | nil => intro m0 e h; exact Or.inl h
  | cons b l' ih =>
    intro m0 e h
    rw [List.foldl_cons] at h
    rcases ih _ e h with h | h
    · rcases mapSet_mem _ _ _ _ h with h | h
      · refine Or.inr ?_
        rw [h]
        exact List.mem_cons_self _ _
      · exact Or.inl h
    · exact Or.inr (List.mem_cons_of_mem _ h)

/-- Claim C4 (amended): the self-backlink exclusion holds provided the
file notes' normalized keys do not collide — pairwise distinct normalized
titles, and no note's title key or case-sensitive path key coinciding
with a different note's path or title key.  Without such hypotheses the
invariant fails: with two notes sharing a title, the second appears in
its own backlink set (see the counterexample). -/
theorem c4_self_backlink_amended (notes : NoteList)
    (loader : List Char → List Char) (n : NoteMeta)
    (hn : n ∈ flattenList notes)
    (H1 : (flattenList notes).Pairwise (fun a b => titleKey a ≠ titleKey b))
    (H3 : ∀ m ∈ flattenList notes, ∀ m' ∈ flattenList notes, m ≠ m' →
      titleKey m ≠ pathKeyCI m' ∧ pathKeyCS m ≠ pathKeyCI m' ∧
      pathKeyCS m ≠ titleKey m') :
    n ∉ getBacklinks (some n) (buildBacklinksIndex notes loader) := by
  intro hmem
  have key : ∀ K : List Char, (K = pathKeyCS n ∨ K = titleKey n) →
      n ∈ (mapGet (buildBacklinksIndex notes loader) K).getD [] → False := by
    intro K hK hin
    rcases hg : mapGet (buildBacklinksIndex notes loader) K with _ | ls
    · rw [hg] at hin
      simp at hin
    · rw [hg] at hin
      obtain ⟨ln, hsound, hid⟩ := buildBacklinksIndex_sound notes loader K ls
        n (mapGet_sound _ _ _ hg) hin
      by_cases hlnn : ln = n
      · rw [hlnn] at hid
        exact hid rfl
      · rcases hsound with hpm | ⟨ms, hgt, hms⟩
        · rcases buildPathMap_sound (flattenList notes) [] (K, ln) hpm with
            h | ⟨hmem', hkey⟩
          · simp at h
          · rcases hK with rfl | rfl
            · exact (H3 n hn ln hmem' (fun h => hlnn h.symm)).2.1 hkey.symm
            · exact (H3 n hn ln hmem' (fun h => hlnn h.symm)).1 hkey.symm
        · obtain ⟨hmem', hkey⟩ := buildTitleMap_sound (flattenList notes) K
            ms hgt ln hms
          rcases hK with rfl | rfl
          · exact (H3 n hn ln hmem' (fun h => hlnn h.symm)).2.2 hkey.symm
          · exact List.Pairwise.forall (fun a b h => (h ·.symm)) H1 hmem' hn
              hlnn hkey
  simp only [getBacklinks] at hmem
  rw [List.mem_map] at hmem
  obtain ⟨e, he, he2⟩ := hmem
  rcases foldl_mapSet_values _ _ _ he with he' | hetb
  · rcases foldl_mapSet_values _ _ _ he' with he'' | hebl
    · simp at he''
    · rw [he2] at hebl
      exact key _ (Or.inl rfl) hebl
  · rw [he2] at hetb
    exact key _ (Or.inr rfl) hetb

/-- Claim C4 counterexample: two file notes `a.md` and `b.md` share the
title `t`; `b.md` contains `[[t]]`, which resolves to `a.md` (first in
flatten order), indexing `b` under the title key `t`; `getBacklinks` on
`b` also consults its title key `t`, so `b` appears in its own backlink
set. -/
theorem c4_self_backlink_counterexample :
    NoteMeta.mk (strL "b.md") (strL "b.md") (strL "t") (some NoteType.file)
        Children.undef
      ∈ getBacklinks
        (some (NoteMeta.mk (strL "b.md") (strL "b.md") (strL "t")
          (some NoteType.file) Children.undef))
        (buildBacklinksIndex
          (NoteList.cons
            (NoteMeta.mk (strL "a.md") (strL "a.md") (strL "t")
              (some NoteType.file) Children.undef)
            (NoteList.cons
              (NoteMeta.mk (strL "b.md") (strL "b.md") (strL "t")
                (some NoteType.file) Children.undef) NoteList.nil))
          (fun p => if p == strL "b.md" then strL "[[t]]" else [])) := by
  decide

/-- Claim C4 witness: the amended invariant on a concrete two-note vault
with distinct, non-colliding titles. -/
theorem c4_self_backlink_witness :
    NoteMeta.mk (strL "b.md") (strL "b.md") (strL "beta")
        (some NoteType.file) Children.undef
      ∉ getBacklinks
        (some (NoteMeta.mk (strL "b.md") (strL "b.md") (strL "beta")
          (some NoteType.file) Children.undef))
        (buildBacklinksIndex
          (NoteList.cons
            (NoteMeta.mk (strL "a.md") (strL "a.md") (strL "alpha")
              (some NoteType.file) Children.undef)
            (NoteList.cons
              (NoteMeta.mk (strL "b.md") (strL "b.md") (strL "beta")
                (some NoteType.file) Children.undef) NoteList.nil))
          (fun p => if p == strL "b.md" then strL "[[beta]]" else [])) :=
  c4_self_backlink_amended
    (NoteList.cons
      (NoteMeta.mk (strL "a.md") (strL "a.md") (strL "alpha")
        (some NoteType.file) Children.undef)
      (NoteList.cons
        (NoteMeta.mk (strL "b.md") (strL "b.md") (strL "beta")
          (some NoteType.file) Children.undef) NoteList.nil))
    (fun p => if p == strL "b.md" then strL "[[beta]]" else [])
    (NoteMeta.mk (strL "b.md") (strL "b.md") (strL "beta")
      (some NoteType.file) Children.undef)
    (by decide) (by decide) (by decide)
